import Mathlib

/-!
# siso::box — a shallow embedding of `src/src/siso.h`

The development models the box engine of the `isosign` utility.

Modelling conventions

* Host: LP64, little-endian.  `size_t` is a natural number reduced modulo `2^64`,
  `uint32_t` modulo `2^32`, `long` ranges over `[-2^63, 2^63)`.
* The backing stream is the C `FILE` object: its byte contents, its position
  indicator, an oracle fixing how many bytes each coming `fwrite` call transfers
  (an empty oracle means every write is complete) and whether `fclose` has been
  called on it.
* A `const void *` argument is `Option (List Nat)`; `none` is the null pointer.
  A buffer handed over together with a byte count must hold at least that many
  bytes (the source would read past it otherwise).
* `box *parent` is the constructor argument of `box.sub`; a box without parent
  is `box.top`.  Member functions that mutate `*this` return the new value of
  `*this`; the ancestors reached through `parent` are part of that value.
* Every box value denotes a box attached to the stream (non-null `fd`); the one
  exception is the sentinel `box()`, whose `fd` is null.  The member functions that
  write or read payload are modelled for an open stream and do not look at the
  `closed` mark.
* `box::~box()` calls `fclose(fd)` for every box with `m_tag == 0` and a non-null
  `fd`, not only for the root.  The temporary of the reading constructor is
  destroyed inside it, so reading a header whose tag is 0 closes the stream; the
  sibling loops destroy the temporary returned by `next()` after each assignment
  and the loop variable when they leave the loop or return it.  A second `fclose`
  and a seek on a closed stream have no defined behaviour.  Copies that the
  language lets the compiler elide in an initialisation are taken as elided, and so
  is the copy of the local `b` that `append` returns, the operand of its only
  `return`.
* `uint32_t h[2]` in the reading constructor is not initialised: when `fread`
  delivers fewer than 8 bytes the header is indeterminate, which the model reports
  as `Outcome.undef`, like a call of `next()` on a box without parent.
* Loops over siblings take an iteration budget; `Outcome.timeout` reports that it
  was used up.
-/

namespace siso

/-! ## Machine integers -/

/-- Number of values of `size_t`. -/
def SIZE : Nat := 2 ^ 64

/-- Number of values of `uint32_t`. -/
def U32 : Nat := 2 ^ 32

/-- Largest offset plus one that `fseek` accepts: its offset parameter is a `long`. -/
def LONG : Nat := 2 ^ 63

/-- `box::swap32`, lines 137-139.  The argument is converted to `uint32_t` at the call. -/
def swap32 (x : Nat) : Nat :=
  let x := x % U32
  ((x &&& 0xff) <<< 24) ||| ((x &&& 0xff00) <<< 8) ||| ((x &&& 0xff0000) >>> 8)
    ||| ((x &&& 0xff000000) >>> 24)

/-- `box::swap64`, lines 141-145.  On the little-endian host `u.b[0]` is the low
word of `u.a` and `u.b[1]` the high word. -/
def swap64 (x : Nat) : Nat :=
  let a := x % SIZE
  let b0 := a % U32
  let b1 := a / U32
  (swap32 b0 <<< 32) ||| swap32 b1

/-- Object representation of a `uint32_t` in host memory (little-endian). -/
def le32 (x : Nat) : List Nat :=
  [x % 256, x / 256 % 256, x / 65536 % 256, x / 16777216 % 256]

/-- Value of a `uint32_t` whose object representation is the four bytes given. -/
def ld32 (bs : List Nat) : Nat :=
  (bs.getD 0 0 % 256) + (bs.getD 1 0 % 256) * 256 + (bs.getD 2 0 % 256) * 65536
    + (bs.getD 3 0 % 256) * 16777216

/-- Big-endian encoding of a 32-bit quantity, most significant byte first. -/
def be32 (x : Nat) : List Nat :=
  [x / 16777216 % 256, x / 65536 % 256, x / 256 % 256, x % 256]

/-! ## The stream -/

/-- The C stream behind a container. -/
structure FILE where
  /-- contents of the file -/
  bytes : List Nat
  /-- file position indicator -/
  pos : Nat
  /-- for each coming `fwrite` call the largest number of bytes it transfers;
  once the list is exhausted every call transfers everything -/
  faults : List Nat
  /-- whether `fclose` has been called on the stream -/
  closed : Bool
  deriving DecidableEq, Repr

/-- Contents after storing `w` at position `pos`: a gap between the old end of
the file and `pos` reads as zeros. -/
def poke (bs : List Nat) (pos : Nat) (w : List Nat) : List Nat :=
  if w = [] then bs
  else bs.take pos ++ List.replicate (pos - bs.length) 0 ++ w ++ bs.drop (pos + w.length)

/-- `fseek(fd, offset, SEEK_SET)` with a `size_t` argument: an offset that does not
fit a non-negative `long` makes the call fail and leaves the position alone. -/
def fseek (f : FILE) (offset : Nat) : FILE :=
  if offset < LONG then { f with pos := offset } else f

/-- `fread(buf, 1, n, fd)`: the bytes delivered (their number is the return value). -/
def fread (f : FILE) (n : Nat) : List Nat × FILE :=
  let got := (f.bytes.drop f.pos).take n
  (got, { f with pos := f.pos + got.length })

/-- `fwrite(buf, 1, buf.length, fd)`: the number of bytes transferred and the stream. -/
def fwrite (f : FILE) (buf : List Nat) : Nat × FILE :=
  let k := match f.faults with
    | [] => buf.length
    | c :: _ => min c buf.length
  (k, { bytes := poke f.bytes f.pos (buf.take k), pos := f.pos + k, faults := f.faults.tail,
        closed := f.closed })

/-- `fclose(fd)` on an open stream. -/
def fclose (f : FILE) : FILE := { f with closed := true }

/-! ## Boxes -/

/-- `class box`: the fields `m_tag`, `m_size`, `m_offset` and `parent`. -/
inductive box where
  /-- a box whose `parent` is null -/
  | top (m_tag m_size m_offset : Nat)
  /-- a box whose `parent` points to the given box -/
  | sub (parent : box) (m_tag m_size m_offset : Nat)
  deriving DecidableEq, Repr

namespace box

/-- Field `m_tag`. -/
def m_tag : box → Nat
  | top t _ _ => t
  | sub _ t _ _ => t

/-- Field `m_size`. -/
def m_size : box → Nat
  | top _ s _ => s
  | sub _ _ s _ => s

/-- Field `m_offset`. -/
def m_offset : box → Nat
  | top _ _ o => o
  | sub _ _ _ o => o

/-- Field `parent`, `none` for the null pointer. -/
def parent : box → Option box
  | top _ _ _ => none
  | sub p _ _ _ => some p

/-- `box::box()`, line 147: the sentinel `box(0, 0, 0, 0)`. -/
def sentinel : box := top 0 0 0

/-- `box::box(int, size_t, size_t, box*)`, lines 148-150. -/
def mk4 (tag size offset : Nat) (parent : Option box) : box :=
  match parent with
  | none => top (tag % U32) (size % SIZE) (offset % SIZE)
  | some p => sub p (tag % U32) (size % SIZE) (offset % SIZE)

/-- `box::end`, line 181 (`end` is reserved in Lean). -/
def end_ (b : box) : Nat := (b.m_offset + b.m_size) % SIZE

/-- `box::operator bool`, line 126. -/
def toBool (b : box) : Bool := b.m_size != 0

/-- `box::box(const char *path)`, lines 42-51, for a file that opens: the position
moves to the end and `ftell` gives the size of the root. -/
def openFile (f : FILE) : box × FILE :=
  (top 0 f.bytes.length 0, { f with pos := f.bytes.length })

/-- `box::clear`, the `for` loop of line 178: the stream and the remaining count. -/
def clearLoop : Nat → FILE → Nat → FILE × Nat
  | 0, f, bytes => (f, bytes)
  | fuel + 1, f, bytes =>
    if bytes > 32 then clearLoop fuel (fwrite f (List.replicate 32 0)).2 (bytes - 32)
    else (f, bytes)

/-- `box::clear`, lines 175-180.  The loop runs at most `bytes` times. -/
def clear (f : FILE) (offset bytes : Nat) : Int × FILE :=
  let f1 := fseek f offset
  let (f2, rest) := clearLoop bytes f1 bytes
  let (n, f3) := fwrite f2 (List.replicate rest 0)
  (if n = rest then 0 else -1, f3)

/-- `box::write`, lines 170-174. -/
def write (f : FILE) (offset : Nat) (data : Option (List Nat)) (bytes : Nat) : Int × FILE :=
  match data with
  | none => clear f offset bytes
  | some d =>
    let f1 := fseek f offset
    let (n, f2) := fwrite f1 (d.take bytes)
    (if n = bytes then 0 else -1, f2)

/-- `box::writeHeader`, lines 157-160. -/
def writeHeader (f : FILE) (b : box) : Int × FILE :=
  let h := le32 (swap32 b.m_size) ++ le32 (swap32 b.m_tag)
  write f b.m_offset (some h) 8

/-- `box::resize`, lines 162-169: the result, the new value of `*this` and the stream. -/
def resize (f : FILE) : box → Nat → Int × box × FILE
  | top t s o, bytes =>
    if t = 0 then (0, top t s o, f)
    else
      let s1 := (s + bytes) % SIZE
      let (r, f1) := write f o (some (le32 (swap32 s1))) 4
      if r ≠ 0 then (-1, top t s1 o, f1) else (0, top t s1 o, f1)
  | sub p t s o, bytes =>
    if t = 0 then (0, sub p t s o, f)
    else
      let s1 := (s + bytes) % SIZE
      let (r, f1) := write f o (some (le32 (swap32 s1))) 4
      if r ≠ 0 then (-1, sub p t s1 o, f1)
      else
        let (r2, p1, f2) := resize f1 p bytes
        (r2, sub p1 t s1 o, f2)

/-- `box::append(uint32_t, size_t, const void*)`, lines 84-90: the returned child
(its `parent` is `*this` as it is after the call), the new `*this` and the stream. -/
def append (f : FILE) (this : box) (tag payloadSize : Nat) (data : Option (List Nat)) :
    box × box × FILE :=
  let b := mk4 tag (payloadSize + 8) (this.m_offset + this.m_size) (some this)
  let f1 := (writeHeader f b).2
  let f2 := if payloadSize % SIZE ≠ 0 then
      (write f1 ((b.m_offset + 8) % SIZE) data (payloadSize % SIZE)).2 else f1
  let (_, this1, f3) := resize f2 this ((payloadSize + 8) % SIZE)
  (sub this1 b.m_tag b.m_size b.m_offset, this1, f3)

/-- `box::append(const void*, size_t)`, lines 97-100. -/
def appendData (f : FILE) (this : box) (data : Option (List Nat)) (bytes : Nat) :
    Int × box × FILE :=
  let f1 := (write f ((this.m_offset + this.m_size) % SIZE) data (bytes % SIZE)).2
  resize f1 this (bytes % SIZE)

/-- `box::update`, lines 108-111. -/
def update (f : FILE) (this : box) (offset : Nat) (data : Option (List Nat)) (bytes : Nat) :
    Int × FILE :=
  if (offset + 8 + bytes) % SIZE > this.m_size then (-1, f)
  else write f ((this.m_offset + 8 + offset) % SIZE) data (bytes % SIZE)

/-- `box::read`, lines 119-124: the bytes copied into the buffer (their number is
the return value) and the stream. -/
def read (f : FILE) (this : box) (offset bytes : Nat) : List Nat × FILE :=
  if (offset + 8) % SIZE ≥ this.m_size then ([], f)
  else
    let bytes := if bytes % SIZE > (this.m_size + SIZE - 8) % SIZE then
      (this.m_size + SIZE - 8) % SIZE else bytes % SIZE
    fread (fseek f ((this.m_offset + offset + 8) % SIZE)) bytes

/-- `box::isLast`, line 131: the loop `while (file->parent) file = file->parent`. -/
def file : box → box
  | top t s o => top t s o
  | sub p _ _ _ => file p

/-- `box::isLast`, lines 130-133. -/
def isLast (b : box) : Bool := (b.m_offset + b.m_size) % SIZE == (file b).m_size

/-! ## Traversal -/

/-- Result of a traversal in the model. -/
inductive Outcome (α : Type) where
  /-- the call returns the value -/
  | ok (a : α)
  /-- the source has no defined behaviour: a null `parent` is dereferenced, a
  header is used of which `fread` delivered fewer than 8 bytes, or a closed stream
  is used or closed again -/
  | undef
  /-- the iteration budget given to the model is used up -/
  | timeout
  deriving DecidableEq, Repr

/-- `box::~box()`, line 52: `if (fd && m_tag == 0) fclose(fd)`.  A box with a parent
has the `fd` of its parent, the stream; a box without parent is, wherever the model
destroys one, the sentinel `box()`, whose `fd` is null.  Closing a stream that is
closed already has no defined behaviour. -/
def destroy (f : FILE) (b : box) : Outcome FILE :=
  match b with
  | top _ _ _ => Outcome.ok f
  | sub _ t _ _ =>
    if t = 0 then (if f.closed then Outcome.undef else Outcome.ok (fclose f))
    else Outcome.ok f

/-- `box::box(size_t offset, const box *parent)`, lines 151-156.  The temporary
`box(swap32(h[1]), swap32(h[0]), offset, parent)` of line 155 is destroyed once it
is assigned to `*this`: when its tag is 0 this closes the stream. -/
def load (f : FILE) (offset : Nat) (parent : box) : Outcome (box × FILE) :=
  if f.closed then Outcome.undef
  else
    let (h, f1) := fread (fseek f offset) 8
    if h.length < 8 then Outcome.undef
    else
      let b := mk4 (swap32 (ld32 (h.drop 4))) (swap32 (ld32 h)) offset (some parent)
      match destroy f1 b with
      | Outcome.ok f2 => Outcome.ok (b, f2)
      | Outcome.undef => Outcome.undef
      | Outcome.timeout => Outcome.timeout

/-- `box::next()`, line 76. -/
def next (f : FILE) (this : box) : Outcome (box × FILE) :=
  match this with
  | top _ _ _ => Outcome.undef
  | sub p _ _ _ => if this.end_ < p.end_ then load f this.end_ p else Outcome.ok (sentinel, f)

/-- The loop shared by `box::first` (line 61) and `box::next(uint32_t)` (line 70):
`for (...; b; b = b.next()) if (hit) return b;` followed by `return box()`.
`return b` copies the loop variable and destroys it (if the copy is elided the
caller destroys the returned box instead, with the same call of `fclose`);
`b = b.next()` destroys the temporary that `next()` returned once it is assigned;
leaving the loop destroys the loop variable. -/
def scan (hit : box → Bool) : Nat → FILE → box → Outcome (box × FILE)
  | 0, _, _ => Outcome.timeout
  | fuel + 1, f, b =>
    if b.toBool then
      if hit b then
        match destroy f b with
        | Outcome.ok f1 => Outcome.ok (b, f1)
        | Outcome.undef => Outcome.undef
        | Outcome.timeout => Outcome.timeout
      else match next f b with
        | Outcome.ok (b1, f1) =>
          match destroy f1 b1 with
          | Outcome.ok f2 => scan hit fuel f2 b1
          | Outcome.undef => Outcome.undef
          | Outcome.timeout => Outcome.timeout
        | Outcome.undef => Outcome.undef
        | Outcome.timeout => Outcome.timeout
    else
      match destroy f b with
      | Outcome.ok f1 => Outcome.ok (sentinel, f1)
      | Outcome.undef => Outcome.undef
      | Outcome.timeout => Outcome.timeout

/-- `box::first`, lines 58-64, with a budget for the loop. -/
def first (fuel : Nat) (f : FILE) (this : box) (tag offset : Nat) : Outcome (box × FILE) :=
  let o := if this.m_tag ≠ 0 then (this.m_offset + 8 + offset) % SIZE else 0
  if o < this.end_ then
    match load f o this with
    | Outcome.ok (b, f1) => scan (fun b => tag % U32 == 0 || b.m_tag == tag % U32) fuel f1 b
    | Outcome.undef => Outcome.undef
    | Outcome.timeout => Outcome.timeout
  else Outcome.ok (sentinel, f)

/-- `box::next(uint32_t tag)`, lines 69-72, with a budget for the loop. -/
def nextTag (fuel : Nat) (f : FILE) (this : box) (tag : Nat) : Outcome (box × FILE) :=
  match next f this with
  | Outcome.ok (b, f1) => scan (fun b => b.m_tag == tag % U32) fuel f1 b
  | Outcome.undef => Outcome.undef
  | Outcome.timeout => Outcome.timeout

end box

/-! ## Definitions used to state the properties -/

/-- Bytes that `write` stores for a buffer argument: the buffer, or zeros for null. -/
def payload (data : Option (List Nat)) (bytes : Nat) : List Nat :=
  match data with
  | none => List.replicate bytes 0
  | some d => d

/-- This box followed by its ancestors, up to and excluding the first box whose
tag is 0 (the file-level box): the boxes whose size `resize` rewrites. -/
def lineage : box → List box
  | box.top t s o => if t = 0 then [] else [box.top t s o]
  | box.sub p t s o => if t = 0 then [] else box.sub p t s o :: lineage p

/-- The chain of boxes with every size in the lineage enlarged by `d`. -/
def grow (d : Nat) : box → box
  | box.top t s o => if t = 0 then box.top t s o else box.top t ((s + d) % SIZE) o
  | box.sub p t s o =>
    if t = 0 then box.sub p t s o else box.sub (grow d p) t ((s + d) % SIZE) o

/-- The contents after the size field of every box of the lineage, enlarged by `d`,
is stored big-endian at the offset of the box, innermost box first. -/
def stamp (bs : List Nat) : box → Nat → List Nat
  | box.top t s o, d => if t = 0 then bs else poke bs o (be32 ((s + d) % SIZE))
  | box.sub p t s o, d =>
    if t = 0 then bs else stamp (poke bs o (be32 ((s + d) % SIZE))) p d

/-- The 32-bit big-endian number stored in the four bytes at offset `o`. -/
def rd32 (bs : List Nat) (o : Nat) : Nat :=
  (bs.getD o 0 % 256) * 16777216 + (bs.getD (o + 1) 0 % 256) * 65536
    + (bs.getD (o + 2) 0 % 256) * 256 + bs.getD (o + 3) 0 % 256

/-- The box described by the header stored at offset `o`: size and tag are the two
big-endian numbers found there. -/
def header (bs : List Nat) (o : Nat) (p : box) : box :=
  box.sub p (rd32 bs (o + 4)) (rd32 bs o) o

/-- Offset at which the children of `b` start: 0 for the file-level box (tag 0),
else `e` bytes behind the 8-byte header of `b`. -/
def start (b : box) (e : Nat) : Nat :=
  if b.m_tag = 0 then 0 else (b.m_offset + 8 + e) % SIZE

/-- `xs` lists consecutive siblings inside `p`, the first one at offset `o`: every
box is the one described by the complete header at its offset, and every box but
the last has a non-zero size and ends below the end of `p`, where the next starts. -/
def Siblings (bs : List Nat) (p : box) : Nat → List box → Prop
  | _, [] => True
  | o, [x] => o + 8 ≤ bs.length ∧ o < LONG ∧ x = header bs o p
  | o, x :: y :: xs =>
    (o + 8 ≤ bs.length ∧ o < LONG ∧ x = header bs o p) ∧ x.m_size ≠ 0 ∧
      x.end_ < p.end_ ∧ Siblings bs p x.end_ (y :: xs)

/-- Each ancestor's header ends before the header of the box below it starts. -/
def nested (b : box) : Prop :=
  (lineage b).Pairwise (fun x a => a.m_offset + 8 ≤ x.m_offset)

open box

theorem testBit_swap32 (x i : Nat) :
    (swap32 x).testBit i =
      if i < 8 then x.testBit (i + 24) else
      if i < 16 then x.testBit (i + 8) else
      if i < 24 then x.testBit (i - 8) else
      if i < 32 then x.testBit (i - 24) else false := by
  have m1 : (0xff:Nat) = 2^8 - 1 := by decide
  have m2 : (0xff00:Nat) = (2^8 - 1) <<< 8 := by decide
  have m3 : (0xff0000:Nat) = (2^8 - 1) <<< 16 := by decide
  have m4 : (0xff000000:Nat) = (2^8 - 1) <<< 24 := by decide
  unfold swap32 U32
  simp only [Nat.testBit_or, Nat.testBit_shiftLeft, Nat.testBit_shiftRight, Nat.testBit_and,
    Nat.testBit_mod_two_pow]
  rw [m1, m2, m3, m4]
  simp only [Nat.testBit_shiftLeft, Nat.testBit_two_pow_sub_one]
  clear m1 m2 m3 m4
  rcases Nat.lt_or_ge i 32 with h | h
  · interval_cases i <;> simp
  · have a1 : ¬ (i < 8) := by omega
    have a2 : ¬ (i < 16) := by omega
    have a3 : ¬ (i < 24) := by omega
    have a4 : ¬ (i < 32) := by omega
    have a5 : ¬ (i - 24 < 8) := by omega
    have a6 : ¬ (i - 8 - 8 < 8) := by omega
    have a7 : ¬ (8 + i < 32) := by omega
    have a8 : ¬ (24 + i < 32) := by omega
    simp [a1, a2, a3, a4, a5, a6, a7, a8]

theorem swap32_lt (x : Nat) : swap32 x < 2 ^ 32 := by
  apply Nat.lt_pow_two_of_testBit
  intro i hi
  rw [testBit_swap32]
  have a1 : ¬ (i < 8) := by omega
  have a2 : ¬ (i < 16) := by omega
  have a3 : ¬ (i < 24) := by omega
  have a4 : ¬ (i < 32) := by omega
  simp [a1, a2, a3, a4]

theorem swap32_swap32 (x : Nat) (h : x < 2 ^ 32) : swap32 (swap32 x) = x := by
  apply Nat.eq_of_testBit_eq
  intro i
  rw [testBit_swap32]
  simp only [testBit_swap32]
  rcases Nat.lt_or_ge i 32 with h1 | h1
  · interval_cases i <;> simp
  · have a1 : ¬ (i < 8) := by omega
    have a2 : ¬ (i < 16) := by omega
    have a3 : ¬ (i < 24) := by omega
    have a4 : ¬ (i < 32) := by omega
    simp only [a1, a2, a3, a4, if_false]
    symm
    apply Nat.testBit_lt_two_pow
    calc x < 2 ^ 32 := h
      _ ≤ 2 ^ i := Nat.pow_le_pow_right (by norm_num) h1

theorem swap32_byte (x k : Nat) (hk : k < 4) :
    swap32 x / 2 ^ (8 * k) % 256 = x / 2 ^ (8 * (3 - k)) % 256 := by
  have e1 : (256:Nat) = 2 ^ 8 := by norm_num
  rw [e1, ← Nat.shiftRight_eq_div_pow, ← Nat.shiftRight_eq_div_pow]
  apply Nat.eq_of_testBit_eq
  intro i
  simp only [Nat.testBit_mod_two_pow, Nat.testBit_shiftRight, testBit_swap32]
  by_cases h : i < 8
  · interval_cases k <;> interval_cases i <;> simp
  · simp [h]


theorem le32_swap32 (v : Nat) : le32 (swap32 v) = be32 v := by
  have h0 := swap32_byte v 0 (by norm_num)
  have h1 := swap32_byte v 1 (by norm_num)
  have h2 := swap32_byte v 2 (by norm_num)
  have h3 := swap32_byte v 3 (by norm_num)
  norm_num at h0 h1 h2 h3
  simp only [le32, be32, h0, h1, h2, h3]

theorem swap32_mod (v : Nat) : swap32 (v % U32) = swap32 v := by
  simp [swap32]

theorem ld32_le32 (y : Nat) : ld32 (le32 y) = y % U32 := by
  simp only [ld32, le32, List.getD_cons_zero, List.getD_cons_succ, U32]
  omega

theorem swap32_ld32_be32 (v : Nat) : swap32 (ld32 (be32 v)) = v % U32 := by
  rw [← le32_swap32, ld32_le32, swap32_mod, ← swap32_mod v]
  exact swap32_swap32 _ (Nat.mod_lt _ (by norm_num [U32]))

theorem swap64_eq (x : Nat) :
    swap64 x = swap32 (x % SIZE % U32) * 2 ^ 32 + swap32 (x % SIZE / U32) := by
  unfold swap64
  simp only
  rw [Nat.shiftLeft_eq, Nat.mul_comm, ← Nat.mul_add_lt_is_or (swap32_lt _)]

theorem swap64_swap64 (y : Nat) (h : y < 2 ^ 64) : swap64 (swap64 y) = y := by
  have a := swap32_lt (y % SIZE % U32)
  have b := swap32_lt (y % SIZE / U32)
  have c1 : y % SIZE % U32 < 2 ^ 32 := Nat.mod_lt _ (by norm_num [U32])
  have c2 : y % SIZE / U32 < 2 ^ 32 := by simp only [SIZE, U32]; omega
  have s1 := swap32_swap32 _ c1
  have s2 := swap32_swap32 _ c2
  rw [swap64_eq (swap64 y), swap64_eq y]
  generalize swap32 (y % SIZE % U32) = A at *
  generalize swap32 (y % SIZE / U32) = B at *
  have e1 : (A * 2 ^ 32 + B) % SIZE % U32 = B := by
    simp only [SIZE, U32]; omega
  have e2 : (A * 2 ^ 32 + B) % SIZE / U32 = A := by
    simp only [SIZE, U32]; omega
  rw [e1, e2, s1, s2]
  simp only [SIZE, U32]; omega

/-! ## Stream contents -/

theorem poke_nil (bs : List Nat) (p : Nat) : poke bs p [] = bs := by
  simp [poke]

theorem length_poke (bs : List Nat) (p : Nat) (w : List Nat) (hw : w ≠ []) :
    (poke bs p w).length = max bs.length (p + w.length) := by
  simp only [poke, hw, if_false, List.length_append, List.length_take, List.length_replicate,
    List.length_drop]
  omega

theorem poke_getElem (bs : List Nat) (p : Nat) (w : List Nat) (i : Nat) :
    (poke bs p w)[i]? =
      if p ≤ i ∧ i < p + w.length then w[i - p]?
      else if i < bs.length then bs[i]?
      else if w ≠ [] ∧ i < p then some 0 else none := by
  by_cases hw : w = []
  · subst hw
    simp only [poke_nil, List.length_nil, Nat.add_zero]
    have : ¬ (p ≤ i ∧ i < p) := by omega
    simp only [this, if_false]
    by_cases h : i < bs.length
    · simp [h]
    · simp only [h, if_false, ne_eq, not_true_eq_false, false_and]
      exact List.getElem?_eq_none (by omega)
  · have hl : 0 < w.length := List.length_pos.mpr hw
    simp only [poke, hw, if_false, List.append_assoc]
    rw [List.getElem?_append, List.length_take]
    by_cases h1 : i < min p bs.length
    · have c1 : ¬ (p ≤ i ∧ i < p + w.length) := by omega
      have c2 : i < bs.length := by omega
      have c3 : i < p := by omega
      simp only [h1, c1, c2, if_true, if_false]
      rw [List.getElem?_take_of_lt c3]
    · rw [if_neg h1, List.getElem?_append, List.length_replicate]
      by_cases h2 : i - min p bs.length < p - bs.length
      · have c1 : ¬ (p ≤ i ∧ i < p + w.length) := by omega
        have c2 : ¬ i < bs.length := by omega
        have c3 : i < p := by omega
        simp only [h2, c1, c2, if_true, if_false, List.getElem?_replicate, ne_eq, hw,
          not_false_eq_true, c3, and_self]
      · rw [if_neg h2, List.getElem?_append]
        by_cases h3 : i - min p bs.length - (p - bs.length) < w.length
        · have c1 : p ≤ i ∧ i < p + w.length := by omega
          have c2 : i - min p bs.length - (p - bs.length) = i - p := by omega
          rw [if_pos h3, if_pos c1, c2]
        · have c1 : ¬ (p ≤ i ∧ i < p + w.length) := by omega
          rw [if_neg h3, if_neg c1, List.getElem?_drop]
          have c2 : p + w.length + (i - min p bs.length - (p - bs.length) - w.length) = i := by
            omega
          rw [c2]
          by_cases h4 : i < bs.length
          · simp [h4]
          · have c3 : ¬ i < p := by omega
            simp only [h4, if_false, c3, and_false]
            exact List.getElem?_eq_none (by omega)

theorem poke_poke_adjacent (bs : List Nat) (p : Nat) (w1 w2 : List Nat) :
    poke (poke bs p w1) (p + w1.length) w2 = poke bs p (w1 ++ w2) := by
  by_cases h1 : w1 = []
  · subst h1; simp [poke_nil]
  by_cases h2 : w2 = []
  · subst h2; simp [poke_nil]
  have l1 : 0 < w1.length := List.length_pos.mpr h1
  have l2 : 0 < w2.length := List.length_pos.mpr h2
  have h12 : w1 ++ w2 ≠ [] := by simp [h1]
  apply List.ext_getElem?
  intro i
  simp only [poke_getElem, length_poke _ _ _ h1, List.length_append, ne_eq, h1, h2, h12,
    not_false_eq_true, true_and]
  by_cases a : p + w1.length ≤ i ∧ i < p + w1.length + w2.length
  · have b : p ≤ i ∧ i < p + (w1.length + w2.length) := by omega
    rw [if_pos a, if_pos b, List.getElem?_append_right (by omega)]
    congr 1; omega
  · rw [if_neg a]
    by_cases b : p ≤ i ∧ i < p + w1.length
    · have c : p ≤ i ∧ i < p + (w1.length + w2.length) := by omega
      have d : i < max bs.length (p + w1.length) := by omega
      rw [if_pos d, if_pos b, if_pos c, List.getElem?_append_left (by omega)]
    · have c : ¬ (p ≤ i ∧ i < p + (w1.length + w2.length)) := by omega
      rw [if_neg c]
      by_cases d : i < bs.length
      · have e : i < max bs.length (p + w1.length) := by omega
        rw [if_pos e, if_neg b, if_pos d]
      · rw [if_neg d]
        by_cases e : i < p
        · have g : i < max bs.length (p + w1.length) := by omega
          rw [if_pos g, if_neg b]
        · have g : ¬ i < max bs.length (p + w1.length) := by omega
          have g2 : ¬ i < p + w1.length := by omega
          rw [if_neg g, if_neg g2, if_neg e]

theorem poke_at_end (bs w : List Nat) : poke bs bs.length w = bs ++ w := by
  by_cases hw : w = []
  · subst hw; simp [poke_nil]
  · simp [poke, hw]

theorem fwrite_ok (f : FILE) (buf : List Nat) (h : f.faults = []) :
    fwrite f buf = (buf.length, ⟨poke f.bytes f.pos buf, f.pos + buf.length, [], f.closed⟩) := by
  simp [fwrite, h]

theorem clearLoop_ok (fuel : Nat) : ∀ (f : FILE) (bytes : Nat), f.faults = [] → bytes ≤ fuel →
    ∃ k rest, rest ≤ 32 ∧ k + rest = bytes ∧
      clearLoop fuel f bytes = (⟨poke f.bytes f.pos (List.replicate k 0), f.pos + k, [], f.closed⟩, rest) := by
  induction fuel with
  | zero =>
    intro f bytes hf hb
    refine ⟨0, 0, by omega, by omega, ?_⟩
    have : bytes = 0 := by omega
    subst this
    cases f
    simp_all [clearLoop, poke_nil]
  | succ n ih =>
    intro f bytes hf hb
    by_cases h : bytes > 32
    · simp only [clearLoop, h, if_true, fwrite_ok f _ hf, List.length_replicate]
      obtain ⟨k, rest, hr, hk, e⟩ := ih ⟨poke f.bytes f.pos (List.replicate 32 0), f.pos + 32, [], f.closed⟩
        (bytes - 32) rfl (by omega)
      refine ⟨32 + k, rest, hr, by omega, ?_⟩
      rw [e]
      simp only
      have := poke_poke_adjacent f.bytes f.pos (List.replicate 32 0) (List.replicate k 0)
      simp only [List.length_replicate] at this
      rw [this, List.append_replicate_replicate, Nat.add_assoc]
    · refine ⟨0, bytes, by omega, by omega, ?_⟩
      cases f
      simp_all [clearLoop, poke_nil]

theorem clear_ok (f : FILE) (offset bytes : Nat) (hf : f.faults = []) (ho : offset < LONG) :
    clear f offset bytes
      = (0, ⟨poke f.bytes offset (List.replicate bytes 0), offset + bytes, [], f.closed⟩) := by
  unfold clear
  have hs : fseek f offset = ⟨f.bytes, offset, [], f.closed⟩ := by
    cases f; simp_all [fseek]
  obtain ⟨k, rest, hr, hk, e⟩ := clearLoop_ok bytes (fseek f offset) bytes (by rw [hs]) (le_refl _)
  simp only [e]
  simp only [hs, fwrite_ok, List.length_replicate, if_true]
  have := poke_poke_adjacent f.bytes offset (List.replicate k 0) (List.replicate rest 0)
  simp only [List.length_replicate] at this
  rw [this, List.append_replicate_replicate, hk, Nat.add_assoc, hk]

theorem write_some_ok (f : FILE) (offset : Nat) (d : List Nat) (bytes : Nat)
    (hf : f.faults = []) (ho : offset < LONG) (hd : d.length = bytes) :
    write f offset (some d) bytes = (0, ⟨poke f.bytes offset d, offset + bytes, [], f.closed⟩) := by
  have hs : fseek f offset = ⟨f.bytes, offset, [], f.closed⟩ := by
    cases f; simp_all [fseek]
  subst hd
  simp [write, hs, fwrite_ok]

theorem write_ok (f : FILE) (offset : Nat) (data : Option (List Nat)) (bytes : Nat)
    (hf : f.faults = []) (ho : offset < LONG) (hd : ∀ d, data = some d → d.length = bytes) :
    write f offset data bytes = (0, ⟨poke f.bytes offset (payload data bytes), offset + bytes, [], f.closed⟩) := by
  cases data with
  | none => simpa [write, payload] using clear_ok f offset bytes hf ho
  | some d => simpa [payload] using write_some_ok f offset d bytes hf ho (hd d rfl)

/-! ## Resize propagation -/

theorem length_be32 (v : Nat) : (be32 v).length = 4 := rfl

theorem be32_ne_nil (v : Nat) : be32 v ≠ [] := by simp [be32]

theorem length_poke_of_le (bs : List Nat) (o : Nat) (w : List Nat)
    (h : o + w.length ≤ bs.length) : (poke bs o w).length = bs.length := by
  by_cases hw : w = []
  · subst hw; rw [poke_nil]
  · rw [length_poke _ _ _ hw]; omega

theorem poke_append_of_le (bs t : List Nat) (o : Nat) (w : List Nat)
    (h : o + w.length ≤ bs.length) : poke (bs ++ t) o w = poke bs o w ++ t := by
  by_cases hw : w = []
  · subst hw; simp [poke_nil]
  · apply List.ext_getElem?
    intro i
    have e1 := poke_getElem (bs ++ t) o w i
    have e2 : (poke bs o w ++ t)[i]? =
        if i < bs.length then (poke bs o w)[i]? else t[i - bs.length]? := by
      rw [List.getElem?_append, length_poke_of_le _ _ _ h]
    rw [e1, e2, poke_getElem, List.length_append]
    by_cases a : o ≤ i ∧ i < o + w.length
    · have b : i < bs.length := by omega
      rw [if_pos a, if_pos b, if_pos a]
    · rw [if_neg a]
      by_cases b : i < bs.length
      · have c : i < bs.length + t.length := by omega
        rw [if_pos c, if_pos b, if_neg a, if_pos b, List.getElem?_append_left b]
      · rw [if_neg b]
        have c : ¬ i < o := by omega
        by_cases e : i < bs.length + t.length
        · rw [if_pos e, List.getElem?_append_right (by omega)]
        · rw [if_neg e]
          simp only [c, and_false, if_false]
          symm
          exact List.getElem?_eq_none (by omega)

theorem mem_lineage_self (b : box) (h : b.m_tag ≠ 0) : b ∈ lineage b := by
  cases b with
  | top t s o => simp only [m_tag] at h; simp [lineage, h]
  | sub p t s o => simp only [m_tag] at h; simp [lineage, h]

theorem resize_ok (b : box) (d : Nat) : ∀ (f : FILE), f.faults = [] →
    (∀ x ∈ lineage b, x.m_offset < LONG) →
    ∃ p, resize f b d = (0, grow d b, ⟨stamp f.bytes b d, p, [], f.closed⟩) := by
  induction b with
  | top t s o =>
    intro f hf hl
    by_cases ht : t = 0
    · refine ⟨f.pos, ?_⟩
      cases f
      simp_all [resize, grow, stamp]
    · have ho : o < LONG := hl (top t s o) (by simp [lineage, ht])
      refine ⟨o + 4, ?_⟩
      have hw := write_some_ok f o (be32 ((s + d) % SIZE)) 4 hf ho rfl
      simp [resize, grow, stamp, ht, hw, le32_swap32]
  | sub p t s o ih =>
    intro f hf hl
    by_cases ht : t = 0
    · refine ⟨f.pos, ?_⟩
      cases f
      simp_all [resize, grow, stamp]
    · have ho : o < LONG := hl (sub p t s o) (by simp [lineage, ht])
      obtain ⟨q, hq⟩ := ih ⟨poke f.bytes o (be32 ((s + d) % SIZE)), o + 4, [], f.closed⟩ rfl
        (fun x hx => hl x (by simp [lineage, ht, hx]))
      refine ⟨q, ?_⟩
      have hw := write_some_ok f o (be32 ((s + d) % SIZE)) 4 hf ho rfl
      simp [resize, grow, stamp, ht, hw, le32_swap32, hq]

theorem length_stamp (b : box) (d : Nat) : ∀ (bs : List Nat),
    (∀ x ∈ lineage b, x.m_offset + 4 ≤ bs.length) → (stamp bs b d).length = bs.length := by
  induction b with
  | top t s o =>
    intro bs hl
    by_cases ht : t = 0
    · simp [stamp, ht]
    · have ho := hl (top t s o) (by simp [lineage, ht])
      simp only [m_offset] at ho
      simp only [stamp, ht, if_false]
      exact length_poke_of_le _ _ _ (by rw [length_be32]; omega)
  | sub p t s o ih =>
    intro bs hl
    by_cases ht : t = 0
    · simp [stamp, ht]
    · have ho := hl (sub p t s o) (by simp [lineage, ht])
      simp only [m_offset] at ho
      have e := length_poke_of_le bs o (be32 ((s + d) % SIZE)) (by rw [length_be32]; omega)
      simp only [stamp, ht, if_false]
      rw [ih _ (fun x hx => by rw [e]; exact hl x (by simp [lineage, ht, hx])), e]

theorem stamp_append (b : box) (d : Nat) : ∀ (bs t : List Nat),
    (∀ x ∈ lineage b, x.m_offset + 4 ≤ bs.length) → stamp (bs ++ t) b d = stamp bs b d ++ t := by
  induction b with
  | top t s o =>
    intro bs tl hl
    by_cases ht : t = 0
    · simp [stamp, ht]
    · have ho := hl (top t s o) (by simp [lineage, ht])
      simp only [m_offset] at ho
      simp only [stamp, ht, if_false]
      exact poke_append_of_le _ _ _ _ (by rw [length_be32]; omega)
  | sub p t s o ih =>
    intro bs tl hl
    by_cases ht : t = 0
    · simp [stamp, ht]
    · have ho := hl (sub p t s o) (by simp [lineage, ht])
      simp only [m_offset] at ho
      have e := length_poke_of_le bs o (be32 ((s + d) % SIZE)) (by rw [length_be32]; omega)
      simp only [stamp, ht, if_false]
      rw [poke_append_of_le _ _ _ _ (by rw [length_be32]; omega),
        ih _ _ (fun x hx => by rw [e]; exact hl x (by simp [lineage, ht, hx]))]

theorem stamp_frame (b : box) (d i : Nat) : ∀ (bs : List Nat), i < bs.length →
    (∀ x ∈ lineage b, ¬ (x.m_offset ≤ i ∧ i < x.m_offset + 4)) →
    (stamp bs b d)[i]? = bs[i]? := by
  induction b with
  | top t s o =>
    intro bs hi hl
    by_cases ht : t = 0
    · simp [stamp, ht]
    · have ho := hl (top t s o) (by simp [lineage, ht])
      simp only [m_offset] at ho
      simp only [stamp, ht, if_false]
      rw [poke_getElem, length_be32, if_neg ho, if_pos hi]
  | sub p t s o ih =>
    intro bs hi hl
    by_cases ht : t = 0
    · simp [stamp, ht]
    · have ho := hl (sub p t s o) (by simp [lineage, ht])
      simp only [m_offset] at ho
      simp only [stamp, ht, if_false]
      have hlen : i < (poke bs o (be32 ((s + d) % SIZE))).length := by
        rw [length_poke _ _ _ (be32_ne_nil _)]; omega
      rw [ih _ hlen (fun x hx => hl x (by simp [lineage, ht, hx])), poke_getElem, length_be32,
        if_neg ho, if_pos hi]

/-! ## Append -/

@[simp] theorem m_tag_top (t s o : Nat) : (top t s o).m_tag = t := rfl
@[simp] theorem m_size_top (t s o : Nat) : (top t s o).m_size = s := rfl
@[simp] theorem m_offset_top (t s o : Nat) : (top t s o).m_offset = o := rfl
@[simp] theorem m_tag_sub (p : box) (t s o : Nat) : (sub p t s o).m_tag = t := rfl
@[simp] theorem m_size_sub (p : box) (t s o : Nat) : (sub p t s o).m_size = s := rfl
@[simp] theorem m_offset_sub (p : box) (t s o : Nat) : (sub p t s o).m_offset = o := rfl

theorem payload_length (data : Option (List Nat)) (P : Nat)
    (hd : ∀ d, data = some d → d.length = P) : (payload data P).length = P := by
  cases data with
  | none => simp [payload]
  | some d => simpa [payload] using hd d rfl

theorem append_ok (f : FILE) (B : box) (tag P : Nat) (data : Option (List Nat))
    (hf : f.faults = []) (htag : tag < U32)
    (hd : ∀ d, data = some d → d.length = P)
    (hend : B.m_offset + B.m_size + 8 + P < LONG)
    (hl : ∀ x ∈ lineage B, x.m_offset < LONG) :
    ∃ p, append f B tag P data =
      (sub (grow (P + 8) B) tag (P + 8) (B.m_offset + B.m_size), grow (P + 8) B,
        ⟨stamp (poke (poke f.bytes (B.m_offset + B.m_size) (be32 (P + 8) ++ be32 tag))
          (B.m_offset + B.m_size + 8) (payload data P)) B (P + 8), p, [], f.closed⟩) := by
  have hL : LONG = 2 ^ 63 := rfl
  have hS : SIZE = 2 ^ 64 := rfl
  have hU : U32 = 2 ^ 32 := rfl
  have m1 : (P + 8) % SIZE = P + 8 := Nat.mod_eq_of_lt (by omega)
  have m2 : (B.m_offset + B.m_size) % SIZE = B.m_offset + B.m_size := Nat.mod_eq_of_lt (by omega)
  have m3 : tag % U32 = tag := Nat.mod_eq_of_lt htag
  have m4 : P % SIZE = P := Nat.mod_eq_of_lt (by omega)
  have m5 : (B.m_offset + B.m_size + 8) % SIZE = B.m_offset + B.m_size + 8 :=
    Nat.mod_eq_of_lt (by omega)
  have w1 := write_some_ok f (B.m_offset + B.m_size)
    (be32 (P + 8) ++ be32 tag) 8 hf (by omega) rfl
  have hpl := payload_length data P hd
  unfold append
  simp only [mk4, m1, m2, m3, m4, m5, writeHeader, m_size_sub, m_tag_sub, m_offset_sub,
    le32_swap32, w1]
  by_cases hP : P = 0
  · subst hP
    have e : payload data 0 = [] := List.length_eq_zero.mp hpl
    obtain ⟨q, hq⟩ := resize_ok B (0 + 8) ⟨poke f.bytes (B.m_offset + B.m_size)
      (be32 (0 + 8) ++ be32 tag), B.m_offset + B.m_size + 8, [], f.closed⟩ rfl hl
    refine ⟨q, ?_⟩
    simp only [ne_eq, not_true_eq_false, if_false, hq, e, poke_nil]
  · have w2 := write_ok ⟨poke f.bytes (B.m_offset + B.m_size) (be32 (P + 8) ++ be32 tag),
      B.m_offset + B.m_size + 8, [], f.closed⟩ (B.m_offset + B.m_size + 8) data P rfl (by omega) hd
    obtain ⟨q, hq⟩ := resize_ok B (P + 8) ⟨poke (poke f.bytes (B.m_offset + B.m_size)
      (be32 (P + 8) ++ be32 tag)) (B.m_offset + B.m_size + 8) (payload data P),
      B.m_offset + B.m_size + 8 + P, [], f.closed⟩ rfl hl
    refine ⟨q, ?_⟩
    simp only [ne_eq, hP, not_false_eq_true, if_true, w2, hq]

theorem append_last_ok (f : FILE) (B : box) (tag P : Nat) (data : Option (List Nat))
    (hf : f.faults = []) (htag : tag < U32)
    (hd : ∀ d, data = some d → d.length = P)
    (hend : B.m_offset + B.m_size = f.bytes.length)
    (hlen : f.bytes.length + 8 + P < LONG)
    (hin : ∀ x ∈ lineage B, x.m_offset + 8 ≤ f.bytes.length) :
    ∃ p, append f B tag P data =
      (sub (grow (P + 8) B) tag (P + 8) f.bytes.length, grow (P + 8) B,
        ⟨stamp f.bytes B (P + 8) ++ (be32 (P + 8) ++ be32 tag ++ payload data P), p, [], f.closed⟩) := by
  obtain ⟨p, hp⟩ := append_ok f B tag P data hf htag hd (by omega)
    (fun x hx => by have := hin x hx; have : LONG = 2 ^ 63 := rfl; omega)
  refine ⟨p, ?_⟩
  rw [hp, hend, poke_at_end]
  have e : f.bytes.length + 8 = (f.bytes ++ (be32 (P + 8) ++ be32 tag)).length := by
    simp [be32]
  rw [e, poke_at_end, List.append_assoc,
    stamp_append B (P + 8) f.bytes _ (fun x hx => by have := hin x hx; omega)]

/-! ## Layout of an appended box (C1) -/

/-- C1: `append(tag, P, data)` on a box whose end is the end of the stream stores,
from the old end of the stream on, exactly the big-endian size `P + 8`, the four
tag bytes (most significant first) and `data`; the returned box has the tag, the
size `P + 8` and the old end as its offset. -/
theorem C1_append_layout (f : FILE) (B : box) (tag P : Nat) (data : List Nat)
    (hf : f.faults = []) (htag : tag < U32) (hP : P + 8 < U32) (hd : data.length = P)
    (hend : B.m_offset + B.m_size = f.bytes.length)
    (hlen : f.bytes.length + 8 + P < LONG)
    (hin : ∀ x ∈ lineage B, x.m_offset + 8 ≤ f.bytes.length) :
    (append f B tag P (some data)).2.2.bytes.drop f.bytes.length
        = [(P + 8) / 16777216, (P + 8) / 65536 % 256, (P + 8) / 256 % 256, (P + 8) % 256]
          ++ [tag / 16777216, tag / 65536 % 256, tag / 256 % 256, tag % 256] ++ data ∧
      (append f B tag P (some data)).2.2.bytes.length = f.bytes.length + 8 + P ∧
      (append f B tag P (some data)).1.m_tag = tag ∧
      (append f B tag P (some data)).1.m_size = P + 8 ∧
      (append f B tag P (some data)).1.m_offset = f.bytes.length := by
  obtain ⟨p, hp⟩ := append_last_ok f B tag P (some data) hf htag
    (fun d h => by cases h; exact hd) hend hlen hin
  have hs := length_stamp B (P + 8) f.bytes (fun x hx => by have := hin x hx; omega)
  have e1 : (P + 8) / 16777216 % 256 = (P + 8) / 16777216 := by
    have : U32 = 2 ^ 32 := rfl
    omega
  have e2 : tag / 16777216 % 256 = tag / 16777216 := by
    have : U32 = 2 ^ 32 := rfl
    omega
  rw [hp]
  refine ⟨?_, ?_, rfl, rfl, rfl⟩
  · simp only [payload, be32, e1, e2]
    rw [← hs, List.drop_left]
  · simp only [payload, be32, List.length_append, hs, hd, List.length_cons, List.length_nil]
    omega

/-- C1, Scenario B: on an empty stream `append('TEST', 4, [1,2,3,4])` at the root
yields the twelve bytes `00 00 00 0C 'T' 'E' 'S' 'T' 01 02 03 04`. -/
theorem C1_append_layout_scenarioB :
    (append ⟨[], 0, [], false⟩ (openFile ⟨[], 0, [], false⟩).1 0x54455354 4 (some [1, 2, 3, 4])).2.2.bytes.drop 0
        = [0, 0, 0, 12] ++ [0x54, 0x45, 0x53, 0x54] ++ [1, 2, 3, 4] ∧
      (append ⟨[], 0, [], false⟩ (openFile ⟨[], 0, [], false⟩).1 0x54455354 4 (some [1, 2, 3, 4])).2.2.bytes.length
        = 0 + 8 + 4 ∧
      (append ⟨[], 0, [], false⟩ (openFile ⟨[], 0, [], false⟩).1 0x54455354 4 (some [1, 2, 3, 4])).1.m_tag
        = 0x54455354 ∧
      (append ⟨[], 0, [], false⟩ (openFile ⟨[], 0, [], false⟩).1 0x54455354 4 (some [1, 2, 3, 4])).1.m_size
        = 4 + 8 ∧
      (append ⟨[], 0, [], false⟩ (openFile ⟨[], 0, [], false⟩).1 0x54455354 4 (some [1, 2, 3, 4])).1.m_offset
        = 0 :=
  C1_append_layout ⟨[], 0, [], false⟩ (openFile ⟨[], 0, [], false⟩).1 0x54455354 4 [1, 2, 3, 4] rfl
    (by decide) (by decide) rfl rfl (by decide) (by intro x hx; simp [openFile, lineage] at hx)

/-! ## Size propagation (C2) -/

theorem rd32_of_field (bs : List Nat) (o v : Nat)
    (h : ∀ k < 4, bs[o + k]? = (be32 v)[k]?) : rd32 bs o = v % U32 := by
  have h0 := h 0 (by norm_num)
  have h1 := h 1 (by norm_num)
  have h2 := h 2 (by norm_num)
  have h3 := h 3 (by norm_num)
  simp only [be32, Nat.add_zero, List.getElem?_cons_zero, List.getElem?_cons_succ] at h0 h1 h2 h3
  simp only [rd32, List.getD_eq_getElem?_getD, h0, h1, h2, h3, Option.getD_some, U32]
  omega

theorem stamp_field (b : box) (d : Nat) : ∀ (bs : List Nat), nested b →
    ∀ x ∈ lineage b, ∀ k < 4,
      (stamp bs b d)[x.m_offset + k]? = (be32 ((x.m_size + d) % SIZE))[k]? := by
  induction b with
  | top t s o =>
    intro bs _ x hx k hk
    by_cases ht : t = 0
    · simp [lineage, ht] at hx
    · simp only [lineage, ht, if_false, List.mem_singleton] at hx
      subst hx
      simp only [stamp, ht, if_false, m_offset_top, m_size_top]
      rw [poke_getElem, length_be32, if_pos (by omega)]
      congr 1; omega
  | sub p t s o ih =>
    intro bs hn x hx k hk
    by_cases ht : t = 0
    · simp [lineage, ht] at hx
    · simp only [nested, lineage, ht, if_false, List.pairwise_cons] at hn
      simp only [lineage, ht, if_false, List.mem_cons] at hx
      simp only [stamp, ht, if_false]
      rcases hx with hx | hx
      · subst hx
        simp only [m_offset_sub, m_size_sub]
        have hlen : o + k < (poke bs o (be32 ((s + d) % SIZE))).length := by
          rw [length_poke _ _ _ (be32_ne_nil _), length_be32]; omega
        rw [stamp_frame p d (o + k) _ hlen (fun a ha => by
          have := hn.1 a ha
          simp only [m_offset_sub] at this
          omega), poke_getElem, length_be32, if_pos (by omega)]
        congr 1; omega
      · exact ih _ hn.2 x hx k hk

theorem lineage_grow (d : Nat) (b : box) : lineage (grow d b) = (lineage b).map (grow d) := by
  induction b with
  | top t s o =>
    by_cases ht : t = 0
    · simp [lineage, grow, ht]
    · simp [lineage, grow, ht]
  | sub p t s o ih =>
    by_cases ht : t = 0
    · simp [lineage, grow, ht]
    · simp [lineage, grow, ht, ih]

theorem tag_ne_zero_of_mem_lineage (b x : box) (h : x ∈ lineage b) : x.m_tag ≠ 0 := by
  induction b with
  | top t s o =>
    by_cases ht : t = 0
    · simp [lineage, ht] at h
    · simp only [lineage, ht, if_false, List.mem_singleton] at h
      subst h; simpa using ht
  | sub p t s o ih =>
    by_cases ht : t = 0
    · simp [lineage, ht] at h
    · simp only [lineage, ht, if_false, List.mem_cons] at h
      rcases h with h | h
      · subst h; simpa using ht
      · exact ih h

theorem grow_fields (d : Nat) (x : box) (h : x.m_tag ≠ 0) :
    (grow d x).m_size = (x.m_size + d) % SIZE ∧ (grow d x).m_offset = x.m_offset ∧
      (grow d x).m_tag = x.m_tag := by
  cases x with
  | top t s o => simp only [m_tag_top] at h; simp [grow, h]
  | sub p t s o => simp only [m_tag_sub] at h; simp [grow, h]

theorem lineage_after (B : box) (δ : Nat) (hsz : ∀ x ∈ lineage B, x.m_size + δ < SIZE) :
    (lineage (grow δ B)).map m_size = (lineage B).map (fun x => x.m_size + δ) ∧
      (lineage (grow δ B)).map m_offset = (lineage B).map m_offset := by
  rw [lineage_grow, List.map_map, List.map_map]
  constructor
  · apply List.map_congr_left
    intro x hx
    have := (grow_fields δ x (tag_ne_zero_of_mem_lineage B x hx)).1
    simp only [Function.comp_apply, this]
    exact Nat.mod_eq_of_lt (hsz x hx)
  · apply List.map_congr_left
    intro x hx
    exact (grow_fields δ x (tag_ne_zero_of_mem_lineage B x hx)).2.1

/-- C3, the failing input: the box `'efgh'` of size 8 at offset 12, payload-relative
offset `2^64 - 9` and one byte.  `offset + 8 + bytes` is `2^64`, far above the size,
yet the sum wraps to 0 in `size_t`, `update` returns 0 and stores the byte at stream
position 11, in the payload of the preceding box. -/
theorem C3_update_bounds_wrap :
    first 2 ⟨[0, 0, 0, 12, 97, 98, 99, 100, 1, 2, 3, 4, 0, 0, 0, 8, 101, 102, 103, 104], 20, [], false⟩
        (top 0 20 0) 0x65666768 0
      = Outcome.ok (sub (top 0 20 0) 0x65666768 8 12,
          ⟨[0, 0, 0, 12, 97, 98, 99, 100, 1, 2, 3, 4, 0, 0, 0, 8, 101, 102, 103, 104], 20, [], false⟩) ∧
    18446744073709551607 < SIZE ∧
    ¬ (18446744073709551607 + 8 + 1 ≤ (sub (top 0 20 0) 0x65666768 8 12).m_size) ∧
    update ⟨[0, 0, 0, 12, 97, 98, 99, 100, 1, 2, 3, 4, 0, 0, 0, 8, 101, 102, 103, 104], 20, [], false⟩
        (sub (top 0 20 0) 0x65666768 8 12) 18446744073709551607 (some [255]) 1
      = (0, ⟨[0, 0, 0, 12, 97, 98, 99, 100, 1, 2, 3, 255, 0, 0, 0, 8, 101, 102, 103, 104],
          12, [], false⟩) := by
  refine ⟨by decide, by decide, by decide, by decide⟩

/-- C4: if `c = B.append(tag, P, data)` for a box `B` that ends at the end of the
stream, then `c.read(0, buf, P)` delivers exactly `data`, hence `P` bytes. -/
theorem C4_append_read_roundtrip (f : FILE) (B : box) (tag P : Nat) (data : List Nat)
    (hf : f.faults = []) (htag : tag < U32) (hd : data.length = P)
    (hend : B.m_offset + B.m_size = f.bytes.length)
    (hlen : f.bytes.length + 8 + P < LONG)
    (hin : ∀ x ∈ lineage B, x.m_offset + 8 ≤ f.bytes.length) :
    (read (append f B tag P (some data)).2.2 (append f B tag P (some data)).1 0 P).1 = data ∧
      (read (append f B tag P (some data)).2.2 (append f B tag P (some data)).1 0 P).1.length
        = P := by
  suffices h : (read (append f B tag P (some data)).2.2
      (append f B tag P (some data)).1 0 P).1 = data by
    rw [h]; exact ⟨rfl, hd⟩
  have hL : LONG = 2 ^ 63 := rfl
  have hS : SIZE = 2 ^ 64 := rfl
  obtain ⟨p, hp⟩ := append_last_ok f B tag P (some data) hf htag
    (fun d h => by cases h; exact hd) hend hlen hin
  have hs := length_stamp B (P + 8) f.bytes (fun x hx => by have := hin x hx; omega)
  rw [hp]
  simp only [box.read, m_size_sub, m_offset_sub, payload, hS]
  by_cases hP : P = 0
  · subst hP
    have : data = [] := List.length_eq_zero.mp hd
    simp [this]
  · have c1 : ¬ ((0 + 8) % 2 ^ 64 ≥ P + 8) := by omega
    have c2 : (P + 8 + 2 ^ 64 - 8) % 2 ^ 64 = P := by omega
    have c3 : (f.bytes.length + 0 + 8) % 2 ^ 64 = f.bytes.length + 8 := by omega
    have c4 : P % 2 ^ 64 = P := by omega
    have c5 : f.bytes.length + 8 < LONG := by omega
    simp only [c1, c2, c3, c4, if_false, fseek, c5, if_true, fread, gt_iff_lt,
      lt_self_iff_false]
    have e : f.bytes.length + 8
        = (stamp f.bytes B (P + 8) ++ (be32 (P + 8) ++ be32 tag)).length := by
      simp [hs, be32]
    rw [← List.append_assoc, e, List.drop_left, ← hd, List.take_length]

/-- C4, an instance: a child `'abcd'` with payload `[9, 8, 7]` appended to the box
`'TEST'` that fills an 8-byte stream. -/
theorem C4_append_read_roundtrip_witness :
    (read (append ⟨[0, 0, 0, 8, 84, 69, 83, 84], 8, [], false⟩ (sub (top 0 8 0) 0x54455354 8 0)
          0x61626364 3 (some [9, 8, 7])).2.2
        (append ⟨[0, 0, 0, 8, 84, 69, 83, 84], 8, [], false⟩ (sub (top 0 8 0) 0x54455354 8 0)
          0x61626364 3 (some [9, 8, 7])).1 0 3).1 = [9, 8, 7] ∧
      (read (append ⟨[0, 0, 0, 8, 84, 69, 83, 84], 8, [], false⟩ (sub (top 0 8 0) 0x54455354 8 0)
          0x61626364 3 (some [9, 8, 7])).2.2
        (append ⟨[0, 0, 0, 8, 84, 69, 83, 84], 8, [], false⟩ (sub (top 0 8 0) 0x54455354 8 0)
          0x61626364 3 (some [9, 8, 7])).1 0 3).1.length = 3 :=
  C4_append_read_roundtrip ⟨[0, 0, 0, 8, 84, 69, 83, 84], 8, [], false⟩
    (sub (top 0 8 0) 0x54455354 8 0) 0x61626364 3 [9, 8, 7] rfl (by decide) rfl rfl
    (by decide) (by decide)

/-- C5, the failing input (Scenario B): the box returned by `append('TEST', 4,
[1,2,3,4])` on the root of an empty stream ends at the end of the 12-byte stream,
yet `isLast()` is false, because the `m_size` of the root is still 0. -/
theorem C5_isLast_after_root_append :
    (append (openFile ⟨[], 0, [], false⟩).2 (openFile ⟨[], 0, [], false⟩).1 0x54455354 4
        (some [1, 2, 3, 4])).2.2.bytes.length = 12 ∧
    (append (openFile ⟨[], 0, [], false⟩).2 (openFile ⟨[], 0, [], false⟩).1 0x54455354 4
        (some [1, 2, 3, 4])).1.m_offset +
      (append (openFile ⟨[], 0, [], false⟩).2 (openFile ⟨[], 0, [], false⟩).1 0x54455354 4
        (some [1, 2, 3, 4])).1.m_size = 12 ∧
    (file (append (openFile ⟨[], 0, [], false⟩).2 (openFile ⟨[], 0, [], false⟩).1 0x54455354 4
        (some [1, 2, 3, 4])).1).m_size = 0 ∧
    isLast (append (openFile ⟨[], 0, [], false⟩).2 (openFile ⟨[], 0, [], false⟩).1 0x54455354 4
        (some [1, 2, 3, 4])).1 = false := by
  refine ⟨by decide, by decide, by decide, by decide⟩

/-! ## Byte-order round trip (C9) -/

/-- C9: applying the byte-order swap twice gives the original value, for every
32-bit `x` and every 64-bit `y`. -/
theorem C9_swap_involution (x y : Nat) (hx : x < 2 ^ 32) (hy : y < 2 ^ 64) :
    swap32 (swap32 x) = x ∧ swap64 (swap64 y) = y :=
  ⟨swap32_swap32 x hx, swap64_swap64 y hy⟩

/-- C9, an instance. -/
theorem C9_swap_involution_witness :
    swap32 (swap32 0x11223344) = 0x11223344 ∧
      swap64 (swap64 0x1122334455667788) = 0x1122334455667788 :=
  C9_swap_involution 0x11223344 0x1122334455667788 (by decide) (by decide)

/-! ## Next sibling (C6) -/

theorem swap32_eq_bytes (x : Nat) :
    swap32 x = (x % 256) * 16777216 + (x / 256 % 256) * 65536 + (x / 65536 % 256) * 256
      + x / 16777216 % 256 := by
  have h0 := swap32_byte x 0 (by norm_num)
  have h1 := swap32_byte x 1 (by norm_num)
  have h2 := swap32_byte x 2 (by norm_num)
  have h3 := swap32_byte x 3 (by norm_num)
  have hl : swap32 x < 4294967296 := swap32_lt x
  simp only [Nat.reduceMul, Nat.reduceSub, Nat.reducePow, Nat.div_one] at h0 h1 h2 h3
  generalize swap32 x = y at *
  have hy : y = y % 256 + (y / 256 % 256) * 256 + (y / 65536 % 256) * 65536
      + (y / 16777216 % 256) * 16777216 := by
    clear h0 h1 h2 h3
    omega
  rw [h0, h1, h2, h3] at hy
  rw [hy]
  ring

theorem swap32_ld32 (bs : List Nat) (o : Nat) :
    swap32 (ld32 ((bs.drop o).take 8)) = rd32 bs o ∧
      swap32 (ld32 (((bs.drop o).take 8).drop 4)) = rd32 bs (o + 4) := by
  have g : ∀ k, k < 8 → ((bs.drop o).take 8).getD k 0 = bs.getD (o + k) 0 := by
    intro k hk
    simp only [List.getD_eq_getElem?_getD, List.getElem?_take, hk, if_true, List.getElem?_drop]
  have g' : ∀ k, k < 4 → (((bs.drop o).take 8).drop 4).getD k 0 = bs.getD (o + 4 + k) 0 := by
    intro k hk
    simp only [List.getD_eq_getElem?_getD, List.getElem?_drop, List.getElem?_take,
      show 4 + k < 8 by omega, if_true, Nat.add_assoc]
  constructor
  · rw [swap32_eq_bytes]
    simp only [ld32, rd32, g 0 (by norm_num), g 1 (by norm_num), g 2 (by norm_num),
      g 3 (by norm_num), Nat.add_zero]
    omega
  · rw [swap32_eq_bytes]
    simp only [ld32, rd32, g' 0 (by norm_num), g' 1 (by norm_num), g' 2 (by norm_num),
      g' 3 (by norm_num), Nat.add_zero, Nat.add_assoc]
    omega

theorem rd32_lt (bs : List Nat) (o : Nat) : rd32 bs o < U32 := by
  simp only [rd32, U32]; omega

theorem destroy_of_tag_ne_zero (f : FILE) (b : box) (h : b.m_tag ≠ 0) :
    destroy f b = Outcome.ok f := by
  cases b with
  | top t s o => rfl
  | sub p t s o =>
    simp only [m_tag_sub] at h
    simp only [destroy, h, if_false]

theorem destroy_sentinel (f : FILE) : destroy f sentinel = Outcome.ok f := rfl

theorem load_ok (f : FILE) (o : Nat) (p : box) (h : o + 8 ≤ f.bytes.length) (ho : o < LONG)
    (hc : f.closed = false) :
    load f o p = Outcome.ok (header f.bytes o p,
      ⟨f.bytes, o + 8, f.faults, decide (rd32 f.bytes (o + 4) = 0)⟩) := by
  have hL : LONG = 2 ^ 63 := rfl
  have hS : SIZE = 2 ^ 64 := rfl
  have hlen : ((f.bytes.drop o).take 8).length = 8 := by
    rw [List.length_take, List.length_drop]; omega
  have e := swap32_ld32 f.bytes o
  have m1 : rd32 f.bytes (o + 4) % U32 = rd32 f.bytes (o + 4) := Nat.mod_eq_of_lt (rd32_lt _ _)
  have m2 : rd32 f.bytes o % SIZE = rd32 f.bytes o := by
    have := rd32_lt f.bytes o
    simp only [U32] at this
    rw [hS]; omega
  have m3 : o % SIZE = o := by rw [hS]; omega
  simp only [load, hc, Bool.false_eq_true, fseek, ho, if_true, fread, hlen, lt_irrefl, if_false,
    e.1, e.2, mk4, m1, m2, m3, header, destroy, fclose]
  by_cases ht : rd32 f.bytes (o + 4) = 0
  · simp only [ht, if_true, decide_True]
  · simp only [ht, if_false, decide_False]

/-- C6 (amended): `b.next()` returns the sentinel when the end of `b` is not below
the end of its parent `p`.  Otherwise, if the 8 header bytes at the end of `b` lie
inside the stream, it returns the box `n` with parent `p` whose offset is the end of
`b`, which is below the end of `p`, and whose size and tag are the big-endian numbers
stored there; the size is not compared with what is left of `p`.  The stream is
open when a header is read. -/
theorem C6_next_bound (f : FILE) (p : box) (t s o : Nat)
    (hin : (sub p t s o).end_ < p.end_ →
      (sub p t s o).end_ + 8 ≤ f.bytes.length ∧ (sub p t s o).end_ < LONG ∧ f.closed = false) :
    ∃ n f1, next f (sub p t s o) = Outcome.ok (n, f1) ∧ f1.bytes = f.bytes ∧
      ((¬ (sub p t s o).end_ < p.end_ ∧ n = sentinel) ∨
        ((sub p t s o).end_ < p.end_ ∧ n.m_offset = (sub p t s o).end_ ∧
          n.m_offset < p.end_ ∧ n.parent = some p ∧
          n.m_size = rd32 f.bytes (sub p t s o).end_ ∧
          n.m_tag = rd32 f.bytes ((sub p t s o).end_ + 4))) := by
  by_cases h : (sub p t s o).end_ < p.end_
  · obtain ⟨h8, hs, hc⟩ := hin h
    refine ⟨header f.bytes (sub p t s o).end_ p, ⟨f.bytes, (sub p t s o).end_ + 8, f.faults,
        decide (rd32 f.bytes ((sub p t s o).end_ + 4) = 0)⟩,
      ?_, rfl, Or.inr ⟨h, rfl, h, rfl, rfl, rfl⟩⟩
    simp only [next, h, if_true, load_ok f _ p h8 hs hc]
  · exact ⟨sentinel, f, by simp only [next, h, if_false], rfl, Or.inl ⟨h, rfl⟩⟩

/-- C6, an instance: the box `'abcd'` of size 8 at offset 0 in a 16-byte stream is
followed by a header that declares the size 100. -/
theorem C6_next_bound_witness :
    ∃ n f1, next ⟨[0, 0, 0, 8, 97, 98, 99, 100, 0, 0, 0, 100, 101, 102, 103, 104], 8, [], false⟩
          (sub (top 0 16 0) 0x61626364 8 0) = Outcome.ok (n, f1) ∧
      f1.bytes = [0, 0, 0, 8, 97, 98, 99, 100, 0, 0, 0, 100, 101, 102, 103, 104] ∧
      ((¬ (sub (top 0 16 0) 0x61626364 8 0).end_ < (top 0 16 0).end_ ∧ n = sentinel) ∨
        ((sub (top 0 16 0) 0x61626364 8 0).end_ < (top 0 16 0).end_ ∧
          n.m_offset = (sub (top 0 16 0) 0x61626364 8 0).end_ ∧
          n.m_offset < (top 0 16 0).end_ ∧ n.parent = some (top 0 16 0) ∧
          n.m_size = rd32 [0, 0, 0, 8, 97, 98, 99, 100, 0, 0, 0, 100, 101, 102, 103, 104]
            (sub (top 0 16 0) 0x61626364 8 0).end_ ∧
          n.m_tag = rd32 [0, 0, 0, 8, 97, 98, 99, 100, 0, 0, 0, 100, 101, 102, 103, 104]
            ((sub (top 0 16 0) 0x61626364 8 0).end_ + 4))) :=
  C6_next_bound ⟨[0, 0, 0, 8, 97, 98, 99, 100, 0, 0, 0, 100, 101, 102, 103, 104], 8, [], false⟩
    (top 0 16 0) 0x61626364 8 0 (fun _ => by decide)

/-- C6, counterexample: in a 16-byte stream the root holds the box `'abcd'` of size
8 at offset 0, followed by a header that declares the size 100.  `next()` on
`'abcd'` returns the box `'efgh'` at offset 8 whose end, 108, exceeds the end of
its parent, 16. -/
theorem C6_next_bound_counterexample :
    first 1 ⟨[0, 0, 0, 8, 97, 98, 99, 100, 0, 0, 0, 100, 101, 102, 103, 104], 16, [], false⟩
        (top 0 16 0) 0 0
      = Outcome.ok (sub (top 0 16 0) 0x61626364 8 0,
          ⟨[0, 0, 0, 8, 97, 98, 99, 100, 0, 0, 0, 100, 101, 102, 103, 104], 8, [], false⟩) ∧
    next ⟨[0, 0, 0, 8, 97, 98, 99, 100, 0, 0, 0, 100, 101, 102, 103, 104], 8, [], false⟩
        (sub (top 0 16 0) 0x61626364 8 0)
      = Outcome.ok (sub (top 0 16 0) 0x65666768 100 8,
          ⟨[0, 0, 0, 8, 97, 98, 99, 100, 0, 0, 0, 100, 101, 102, 103, 104], 16, [], false⟩) ∧
    ¬ ((sub (top 0 16 0) 0x65666768 100 8).m_offset + (sub (top 0 16 0) 0x65666768 100 8).m_size
        ≤ (top 0 16 0).m_offset + (top 0 16 0).m_size) := by
  refine ⟨by decide, by decide, by decide⟩

/-! ## Tag search (C7) -/

theorem scan_succ (hit : box → Bool) (fuel : Nat) (f : FILE) (b : box) :
    scan hit (fuel + 1) f b =
      if b.m_size ≠ 0 then
        if hit b = true then
          match destroy f b with
          | Outcome.ok f1 => Outcome.ok (b, f1)
          | Outcome.undef => Outcome.undef
          | Outcome.timeout => Outcome.timeout
        else match next f b with
          | Outcome.ok (b1, f1) =>
            match destroy f1 b1 with
            | Outcome.ok f2 => scan hit fuel f2 b1
            | Outcome.undef => Outcome.undef
            | Outcome.timeout => Outcome.timeout
          | Outcome.undef => Outcome.undef
          | Outcome.timeout => Outcome.timeout
      else
        match destroy f b with
        | Outcome.ok f1 => Outcome.ok (sentinel, f1)
        | Outcome.undef => Outcome.undef
        | Outcome.timeout => Outcome.timeout := by
  by_cases h : b.m_size = 0
  · simp [scan, box.toBool, h]
  · simp [scan, box.toBool, h]

theorem scan_sentinel (hit : box → Bool) (fuel : Nat) (f : FILE) :
    scan hit (fuel + 1) f sentinel = Outcome.ok (sentinel, f) := by
  rw [scan_succ]; simp [sentinel, destroy]

theorem next_header (f : FILE) (bs : List Nat) (o : Nat) (p : box) :
    next f (header bs o p) =
      if (header bs o p).end_ < p.end_ then load f (header bs o p).end_ p
      else Outcome.ok (sentinel, f) := rfl

theorem load_header (f : FILE) (bs : List Nat) (o : Nat) (p x : box) (hf : f.bytes = bs)
    (hc : f.closed = false) (hx : o + 8 ≤ bs.length ∧ o < LONG ∧ x = header bs o p)
    (ht : x.m_tag ≠ 0) :
    load f o p = Outcome.ok (x, ⟨bs, o + 8, f.faults, false⟩) := by
  have hl := load_ok f o p (by rw [hf]; exact hx.1) hx.2.1 hc
  have h0 : rd32 bs (o + 4) ≠ 0 := by
    have := ht
    rw [hx.2.2] at this
    exact this
  rw [hf, ← hx.2.2] at hl
  rw [hl]
  simp only [h0, decide_False]

theorem scan_chain (hit : box → Bool) (bs : List Nat) (p : box) (x : box) (zs : List box) :
    ∀ (xs : List box) (o : Nat) (f : FILE) (fuel : Nat), f.bytes = bs → f.closed = false →
      Siblings bs p o (xs ++ x :: zs) → (∀ y ∈ xs, hit y = false) →
      (∀ y ∈ xs, y.m_tag ≠ 0) → x.m_tag ≠ 0 →
      ((x.m_size ≠ 0 ∧ hit x = true) ∨ (zs = [] ∧ (x.m_size = 0 ∨ ¬ x.end_ < p.end_))) →
      xs.length + 2 ≤ fuel →
      ∃ f1, (match load f o p with
          | Outcome.ok (b, f1) => scan hit fuel f1 b
          | Outcome.undef => Outcome.undef
          | Outcome.timeout => Outcome.timeout)
        = Outcome.ok (if x.m_size ≠ 0 ∧ hit x = true then x else sentinel, f1) ∧
        f1.bytes = bs ∧ f1.closed = false := by
  intro xs
  induction xs with
  | nil =>
    intro o f fuel hf hc hs _ _ htx hdec hfuel
    obtain ⟨n, rfl⟩ : ∃ n, fuel = n + 2 := ⟨fuel - 2, by simp at hfuel; omega⟩
    have hx : o + 8 ≤ bs.length ∧ o < LONG ∧ x = header bs o p := by
      cases zs with
      | nil => exact hs
      | cons z r => exact hs.1
    have hl := load_header f bs o p x hf hc hx htx
    have hd := destroy_of_tag_ne_zero ⟨bs, o + 8, f.faults, false⟩ x htx
    refine ⟨⟨bs, o + 8, f.faults, false⟩, ?_, rfl, rfl⟩
    simp only [hl]
    rw [scan_succ]
    by_cases h0 : x.m_size = 0
    · simp [h0, hd]
    · by_cases hh : hit x = true
      · simp [h0, hh, hd]
      · have hend : ¬ x.end_ < p.end_ := by
          rcases hdec with h | h
          · exact absurd h.2 hh
          · rcases h.2 with h | h
            · exact absurd h h0
            · exact h
        have hn : next ⟨bs, o + 8, f.faults, false⟩ x
            = Outcome.ok (sentinel, ⟨bs, o + 8, f.faults, false⟩) := by
          rw [hx.2.2, next_header, ← hx.2.2, if_neg hend]
        simp only [ne_eq, h0, not_false_eq_true, if_true, hh, if_false, hn, and_false,
          destroy_sentinel, scan_sentinel]
        simp
  | cons y ys ih =>
    intro o f fuel hf hc hs hmiss htags htx hdec hfuel
    obtain ⟨n, rfl⟩ : ∃ n, fuel = n + 1 := ⟨fuel - 1, by simp at hfuel; omega⟩
    obtain ⟨w, r, hw⟩ : ∃ w r, ys ++ x :: zs = w :: r := by
      cases ys with
      | nil => exact ⟨x, zs, rfl⟩
      | cons a as => exact ⟨a, as ++ x :: zs, rfl⟩
    rw [List.cons_append, hw] at hs
    obtain ⟨hy, hy0, hyend, hrest⟩ := hs
    rw [← hw] at hrest
    have hl := load_header f bs o p y hf hc hy (htags y (List.mem_cons_self _ _))
    have hhy : hit y = false := hmiss y (List.mem_cons_self _ _)
    have hn : next ⟨bs, o + 8, f.faults, false⟩ y
        = load ⟨bs, o + 8, f.faults, false⟩ y.end_ p := by
      rw [hy.2.2, next_header, ← hy.2.2, if_pos hyend]
    obtain ⟨w1, r1, hw1⟩ : ∃ w1 r1, w1 :: r1 = ys ++ [x] := by
      cases ys with
      | nil => exact ⟨x, [], rfl⟩
      | cons a as => exact ⟨a, as ++ [x], rfl⟩
    have hw1x : w1.m_tag ≠ 0 := by
      cases ys with
      | nil =>
        simp only [List.nil_append, List.cons.injEq] at hw1
        rw [hw1.1]; exact htx
      | cons a as =>
        simp only [List.cons_append, List.cons.injEq] at hw1
        rw [hw1.1]; exact htags a (by simp)
    have hw1h : y.end_ + 8 ≤ bs.length ∧ y.end_ < LONG ∧ w1 = header bs y.end_ p := by
      cases ys with
      | nil =>
        simp only [List.nil_append, List.cons.injEq] at hw1
        rw [hw1.1]
        simp only [List.nil_append] at hrest
        cases zs with
        | nil => exact hrest
        | cons z r => exact hrest.1
      | cons a as =>
        simp only [List.cons_append, List.cons.injEq] at hw1
        rw [hw1.1]
        simp only [List.cons_append] at hrest
        obtain ⟨w2, r2, hw2⟩ : ∃ w2 r2, as ++ x :: zs = w2 :: r2 := by
          cases as with
          | nil => exact ⟨x, zs, rfl⟩
          | cons c cs => exact ⟨c, cs ++ x :: zs, rfl⟩
        rw [hw2] at hrest
        exact hrest.1
    have hl1 := load_header ⟨bs, o + 8, f.faults, false⟩ bs y.end_ p w1 rfl rfl hw1h hw1x
    obtain ⟨f1, h1, h2⟩ := ih y.end_ ⟨bs, o + 8, f.faults, false⟩ n rfl rfl hrest
      (fun a ha => hmiss a (List.mem_cons_of_mem _ ha))
      (fun a ha => htags a (List.mem_cons_of_mem _ ha)) htx hdec
      (by simp only [List.length_cons] at hfuel; omega)
    refine ⟨f1, ?_, h2⟩
    simp only [hl]
    rw [← h1, scan_succ]
    simp only [ne_eq, hy0, not_false_eq_true, if_true, hhy, Bool.false_eq_true, if_false, hn, hl1,
      destroy_of_tag_ne_zero _ w1 hw1x]

theorem end_header (bs : List Nat) (o : Nat) (p : box) (h : o + U32 ≤ SIZE) :
    (header bs o p).end_ = o + rd32 bs o := by
  have := rd32_lt bs o
  simp only [end_, header, m_offset_sub, m_size_sub]
  exact Nat.mod_eq_of_lt (by omega)

theorem siblings_offsets (bs : List Nat) (p : box) (hp : p.end_ + U32 ≤ SIZE) :
    ∀ (ws : List box) (o : Nat), o < p.end_ → Siblings bs p o ws →
      ws.Pairwise (fun a c => a.m_offset < c.m_offset) ∧ ∀ w ∈ ws, o ≤ w.m_offset := by
  intro ws
  induction ws with
  | nil => intro o _ _; simp
  | cons x r ih =>
    intro o ho hs
    cases r with
    | nil =>
      have hx : x = header bs o p := hs.2.2
      subst hx
      simp [header]
    | cons y r =>
      obtain ⟨hx, hx0, hxend, hrest⟩ := hs
      have he : x.end_ = o + x.m_size := by
        rw [hx.2.2, end_header bs o p (by omega)]; rfl
      have hxo : x.m_offset = o := by rw [hx.2.2]; rfl
      obtain ⟨h1, h2⟩ := ih x.end_ hxend hrest
      refine ⟨List.pairwise_cons.mpr ⟨fun w hw => ?_, h1⟩, fun w hw => ?_⟩
      · have := h2 w hw
        omega
      · rcases List.mem_cons.mp hw with h | h
        · rw [h, hxo]
        · have := h2 w h
          omega


/-- The search of `first` on an open stream in which no header that is read has
the tag 0.  Let `xs ++ x :: zs` be the chain of siblings that starts at the first
child offset of `b`, where no box of `xs` passes the filter (`t = 0`, or tag `t`)
and `x` either passes it and has non-zero size, or ends the chain (size 0, or end
not below the end of `b`).  Then `b.first(t, e)` returns `x` in the first case and
the sentinel in the second, as it does when the start offset is not below the end of
`b`; every box of the chain that passes the filter has an offset not below that
of `x`. -/
theorem first_search (f : FILE) (b : box) (t e fuel : Nat) (xs zs : List box) (x : box)
    (ht : t < U32) (hw : b.end_ + U32 ≤ SIZE)
    (hchain : start b e < b.end_ →
      f.closed = false ∧
      Siblings f.bytes b (start b e) (xs ++ x :: zs) ∧
        (∀ y ∈ xs, y.m_tag ≠ 0) ∧ x.m_tag ≠ 0 ∧
        (∀ y ∈ xs, ¬ (t = 0 ∨ y.m_tag = t)) ∧
        ((x.m_size ≠ 0 ∧ (t = 0 ∨ x.m_tag = t)) ∨
          (zs = [] ∧ (x.m_size = 0 ∨ ¬ x.end_ < b.end_))) ∧
        xs.length + 2 ≤ fuel) :
    ∃ f1, first fuel f b t e
        = Outcome.ok (if start b e < b.end_ ∧ x.m_size ≠ 0 ∧ (t = 0 ∨ x.m_tag = t) then x
            else sentinel, f1) ∧
      f1.bytes = f.bytes ∧ f1.closed = f.closed ∧
      (start b e < b.end_ → ∀ y ∈ xs ++ x :: zs, (t = 0 ∨ y.m_tag = t) →
        x.m_offset ≤ y.m_offset) := by
  have hst : (if b.m_tag ≠ 0 then (b.m_offset + 8 + e) % SIZE else 0) = start b e := by
    by_cases h : b.m_tag = 0 <;> simp [start, h]
  have htm : t % U32 = t := Nat.mod_eq_of_lt ht
  by_cases hs : start b e < b.end_
  · obtain ⟨hc, hsib, htags, htx, hmiss, hdec, hfuel⟩ := hchain hs
    have hhit : ∀ y : box, ((t == 0 || y.m_tag == t) = true) ↔ (t = 0 ∨ y.m_tag = t) := by
      intro y; simp
    obtain ⟨f1, h1, h2, h3⟩ := scan_chain (fun y => t == 0 || y.m_tag == t) f.bytes b x zs xs
      (start b e) f fuel rfl hc hsib
      (fun y hy => by
        have := hmiss y hy
        rw [← hhit] at this
        simpa using this)
      htags htx
      (by
        rcases hdec with h | h
        · exact Or.inl ⟨h.1, (hhit x).mpr h.2⟩
        · exact Or.inr h)
      hfuel
    refine ⟨f1, ?_, h2, by rw [h3, hc], fun _ y hy hyt => ?_⟩
    · simp only [first, hst, hs, if_true, htm, true_and]
      rw [h1]
      simp only [hhit]
    · obtain ⟨hp, _⟩ := siblings_offsets f.bytes b hw (xs ++ x :: zs) (start b e) hs hsib
      rw [List.pairwise_append] at hp
      rcases List.mem_append.mp hy with h | h
      · exact absurd hyt (hmiss y h)
      · rcases List.mem_cons.mp h with h | h
        · rw [h]
        · exact Nat.le_of_lt ((List.pairwise_cons.mp hp.2.1).1 y h)
  · exact ⟨f, by simp only [first, hst, hs, if_false, false_and], rfl, rfl,
      fun h => absurd h hs⟩

/-- Two instances of `first_search`: the search for `'efgh'` below the root of a
stream that holds the boxes `'abcd'` (size 12) and `'efgh'` (size 8), and Scenario A,
`first()` on the root of a zero-length stream. -/
theorem first_search_instances :
    (∃ f1, first 3
          ⟨[0, 0, 0, 12, 97, 98, 99, 100, 1, 2, 3, 4, 0, 0, 0, 8, 101, 102, 103, 104], 20, [], false⟩
          (top 0 20 0) 0x65666768 0
        = Outcome.ok (sub (top 0 20 0) 0x65666768 8 12, f1) ∧
      f1.bytes = [0, 0, 0, 12, 97, 98, 99, 100, 1, 2, 3, 4, 0, 0, 0, 8, 101, 102, 103, 104]) ∧
    (∃ f1, first 0 ⟨[], 0, [], false⟩ (openFile ⟨[], 0, [], false⟩).1 0 0
        = Outcome.ok (sentinel, f1) ∧ f1.bytes = []) := by
  obtain ⟨f1, h1, h2, _⟩ := first_search
      ⟨[0, 0, 0, 12, 97, 98, 99, 100, 1, 2, 3, 4, 0, 0, 0, 8, 101, 102, 103, 104], 20, [], false⟩
      (top 0 20 0) 0x65666768 0 3 [sub (top 0 20 0) 0x61626364 12 0] []
      (sub (top 0 20 0) 0x65666768 8 12) (by decide) (by decide)
      (fun _ => ⟨rfl, ⟨⟨by decide, by decide, by decide⟩, by decide, by decide,
          by decide, by decide, by decide⟩,
        by decide, by decide, by decide, Or.inl ⟨by decide, Or.inr rfl⟩, by decide⟩)
  obtain ⟨f2, k1, k2, _⟩ := first_search ⟨[], 0, [], false⟩ (openFile ⟨[], 0, [], false⟩).1 0 0 0
      [] [] sentinel (by decide) (by decide) (fun h => absurd h (by decide))
  exact ⟨⟨f1, by rw [h1]; rfl, h2⟩, ⟨f2, by rw [k1]; rfl, k2⟩⟩

/-- C7, the failing inputs: a header with tag 0 among the children.  Reading it
closes the stream, because the destructor of the temporary box of the reading
constructor calls `fclose` for tag 0, and the next destructor that runs on a copy of
this box closes it a second time.
(1) The root of the 16-byte stream `00 00 00 08 'abcd'` followed by 8 zero bytes is
searched for `'efgh'`: no box has this tag, yet `first` does not return the
sentinel.
(2) In the 24-byte stream `'abcd'`, a box with tag 0, `'efgh'`, each of size 8, the
search for `'efgh'` does not return the box at offset 16.
(3) `first()` without filter on the stream `00 00 00 08 00 00 00 00` does not return
the first box of the chain.
(4) With `'ijkl'` in place of the tag 0 the search of (1) returns the sentinel. -/
theorem C7_first_zero_tag_header :
    (load ⟨[0, 0, 0, 8, 97, 98, 99, 100, 0, 0, 0, 0, 0, 0, 0, 0], 8, [], false⟩ 8 (top 0 16 0)
        = Outcome.ok (sub (top 0 16 0) 0 0 8,
            ⟨[0, 0, 0, 8, 97, 98, 99, 100, 0, 0, 0, 0, 0, 0, 0, 0], 16, [], true⟩) ∧
      destroy ⟨[0, 0, 0, 8, 97, 98, 99, 100, 0, 0, 0, 0, 0, 0, 0, 0], 16, [], true⟩
          (sub (top 0 16 0) 0 0 8) = Outcome.undef ∧
      first 3 ⟨[0, 0, 0, 8, 97, 98, 99, 100, 0, 0, 0, 0, 0, 0, 0, 0], 16, [], false⟩
          (top 0 16 0) 0x65666768 0 = Outcome.undef) ∧
    first 4 ⟨[0, 0, 0, 8, 97, 98, 99, 100, 0, 0, 0, 8, 0, 0, 0, 0,
          0, 0, 0, 8, 101, 102, 103, 104], 24, [], false⟩
        (top 0 24 0) 0x65666768 0 = Outcome.undef ∧
    first 2 ⟨[0, 0, 0, 8, 0, 0, 0, 0], 8, [], false⟩ (top 0 8 0) 0 0 = Outcome.undef ∧
    first 3 ⟨[0, 0, 0, 8, 97, 98, 99, 100, 0, 0, 0, 8, 105, 106, 107, 108], 16, [], false⟩
        (top 0 16 0) 0x65666768 0
      = Outcome.ok (sentinel,
          ⟨[0, 0, 0, 8, 97, 98, 99, 100, 0, 0, 0, 8, 105, 106, 107, 108], 16, [], false⟩) := by
  refine ⟨⟨by decide, by decide, by decide⟩, by decide, by decide, by decide⟩

/-! ## Clipping of `read`, frame of `append` (C8, C10) -/

/-- C8, the failing input: the box `'abcd'` of size 12 at offset 0 is followed by
the box `'efgh'`.  `read(2, buf, 4)` delivers 4 bytes, the stream positions 10 to
13, although only `12 - 8 - 2 = 2` payload bytes are left from that offset on: the
last two bytes delivered are the first two header bytes of `'efgh'`. -/
theorem C8_read_past_end :
    read ⟨[0, 0, 0, 12, 97, 98, 99, 100, 1, 2, 3, 4, 0, 0, 0, 8, 101, 102, 103, 104], 8, [], false⟩
        (sub (top 0 20 0) 0x61626364 12 0) 2 4
      = ([3, 4, 0, 0],
          ⟨[0, 0, 0, 12, 97, 98, 99, 100, 1, 2, 3, 4, 0, 0, 0, 8, 101, 102, 103, 104], 14, [], false⟩) ∧
    min 4 ((sub (top 0 20 0) 0x61626364 12 0).m_size - 8 - 2) = 2 ∧
    (sub (top 0 20 0) 0x61626364 12 0).m_offset + (sub (top 0 20 0) 0x61626364 12 0).m_size
      = 12 ∧
    first 1 ⟨[0, 0, 0, 12, 97, 98, 99, 100, 1, 2, 3, 4, 0, 0, 0, 8, 101, 102, 103, 104], 20, [], false⟩
        (top 0 20 0) 0 0
      = Outcome.ok (sub (top 0 20 0) 0x61626364 12 0,
          ⟨[0, 0, 0, 12, 97, 98, 99, 100, 1, 2, 3, 4, 0, 0, 0, 8, 101, 102, 103, 104], 8, [], false⟩) := by
  refine ⟨by decide, by decide, by decide, by decide⟩

/-- C10: `append(tag, P, data)` on a box that ends at the end of the stream makes
the stream exactly `P + 8` bytes longer, and every byte of the old stream that lies
outside the 4-byte size fields of the box and of its ancestors below the file-level
box keeps its value. -/
theorem C10_append_frame (f : FILE) (B : box) (tag P : Nat) (data : Option (List Nat))
    (hf : f.faults = []) (htag : tag < U32)
    (hd : ∀ d, data = some d → d.length = P)
    (hend : B.m_offset + B.m_size = f.bytes.length)
    (hlen : f.bytes.length + 8 + P < LONG)
    (hin : ∀ x ∈ lineage B, x.m_offset + 8 ≤ f.bytes.length) :
    (append f B tag P data).2.2.bytes.length = f.bytes.length + (P + 8) ∧
      ∀ i, i < f.bytes.length →
        (∀ x ∈ lineage B, ¬ (x.m_offset ≤ i ∧ i < x.m_offset + 4)) →
        (append f B tag P data).2.2.bytes[i]? = f.bytes[i]? := by
  obtain ⟨p, hp⟩ := append_last_ok f B tag P data hf htag hd hend hlen hin
  have hs := length_stamp B (P + 8) f.bytes (fun x hx => by have := hin x hx; omega)
  rw [hp]
  constructor
  · simp only [List.length_append, hs, length_be32, payload_length data P hd]
    omega
  · intro i hi hx
    simp only
    rw [List.getElem?_append_left (by rw [hs]; exact hi)]
    exact stamp_frame B (P + 8) i f.bytes hi hx

/-- C10, an instance: a zero-filled child of payload size 2 appended to the box
`'TEST'` that fills an 8-byte stream. -/
theorem C10_append_frame_witness :
    (append ⟨[0, 0, 0, 8, 84, 69, 83, 84], 8, [], false⟩ (sub (top 0 8 0) 0x54455354 8 0)
        0x61626364 2 none).2.2.bytes.length
      = [0, 0, 0, 8, 84, 69, 83, 84].length + (2 + 8) ∧
      ∀ i, i < [0, 0, 0, 8, 84, 69, 83, 84].length →
        (∀ x ∈ lineage (sub (top 0 8 0) 0x54455354 8 0),
          ¬ (x.m_offset ≤ i ∧ i < x.m_offset + 4)) →
        (append ⟨[0, 0, 0, 8, 84, 69, 83, 84], 8, [], false⟩ (sub (top 0 8 0) 0x54455354 8 0)
          0x61626364 2 none).2.2.bytes[i]? = [0, 0, 0, 8, 84, 69, 83, 84][i]? :=
  C10_append_frame ⟨[0, 0, 0, 8, 84, 69, 83, 84], 8, [], false⟩ (sub (top 0 8 0) 0x54455354 8 0)
    0x61626364 2 none rfl (by decide) (fun d h => by cases h) rfl (by decide) (by decide)

/-! ## Successive appends (C11) -/

theorem lineage_grow_offsets (B : box) (δ L : Nat)
    (h : ∀ x ∈ lineage B, x.m_offset + 8 ≤ L) : ∀ x ∈ lineage (grow δ B), x.m_offset + 8 ≤ L := by
  intro x hx
  rw [lineage_grow] at hx
  obtain ⟨y, hy, rfl⟩ := List.mem_map.mp hx
  rw [(grow_fields δ y (tag_ne_zero_of_mem_lineage B y hy)).2.1]
  exact h y hy

/-- Two successive appends on a box with non-zero tag that ends at the end of the
stream: the second child starts where the first one ends and the stream holds both
children back to back. -/
theorem append_twice (f : FILE) (B : box) (t1 P1 t2 P2 : Nat) (d1 d2 : Option (List Nat))
    (hf : f.faults = []) (ht1 : t1 < U32) (ht2 : t2 < U32) (hB : B.m_tag ≠ 0)
    (hd1 : ∀ d, d1 = some d → d.length = P1) (hd2 : ∀ d, d2 = some d → d.length = P2)
    (hend : B.m_offset + B.m_size = f.bytes.length)
    (hlen : f.bytes.length + 8 + P1 + 8 + P2 < LONG)
    (hin : ∀ x ∈ lineage B, x.m_offset + 8 ≤ f.bytes.length) :
    (append (append f B t1 P1 d1).2.2 (append f B t1 P1 d1).2.1 t2 P2 d2).1.m_offset
        = (append f B t1 P1 d1).1.m_offset + P1 + 8 ∧
      (append (append f B t1 P1 d1).2.2 (append f B t1 P1 d1).2.1 t2 P2 d2).2.2.bytes.drop
          f.bytes.length
        = (be32 (P1 + 8) ++ be32 t1 ++ payload d1 P1)
          ++ (be32 (P2 + 8) ++ be32 t2 ++ payload d2 P2) := by
  have hL : LONG = 2 ^ 63 := rfl
  have hS : SIZE = 2 ^ 64 := rfl
  obtain ⟨p, hp⟩ := append_last_ok f B t1 P1 d1 hf ht1 hd1 hend (by omega) hin
  have hs := length_stamp B (P1 + 8) f.bytes (fun x hx => by have := hin x hx; omega)
  have hpl := payload_length d1 P1 hd1
  have hg := grow_fields (P1 + 8) B hB
  have hlen1 : (stamp f.bytes B (P1 + 8) ++ (be32 (P1 + 8) ++ be32 t1 ++ payload d1 P1)).length
      = f.bytes.length + 8 + P1 := by
    simp only [List.length_append, hs, length_be32, hpl]; omega
  have hend1 : (grow (P1 + 8) B).m_offset + (grow (P1 + 8) B).m_size
      = (stamp f.bytes B (P1 + 8) ++ (be32 (P1 + 8) ++ be32 t1 ++ payload d1 P1)).length := by
    rw [hlen1, hg.1, hg.2.1, hS]; omega
  have hin1 := lineage_grow_offsets B (P1 + 8) f.bytes.length hin
  rw [hp]
  obtain ⟨q, hq⟩ := append_last_ok
    ⟨stamp f.bytes B (P1 + 8) ++ (be32 (P1 + 8) ++ be32 t1 ++ payload d1 P1), p, [], f.closed⟩
    (grow (P1 + 8) B) t2 P2 d2 rfl ht2 hd2 hend1 (by rw [hlen1]; omega)
    (fun x hx => by rw [hlen1]; have := hin1 x hx; omega)
  simp only at hq
  simp only [hq, m_offset_sub, hlen1]
  refine ⟨by omega, ?_⟩
  rw [stamp_append (grow (P1 + 8) B) (P2 + 8) (stamp f.bytes B (P1 + 8)) _
    (fun x hx => by rw [hs]; have := hin1 x hx; omega), List.append_assoc]
  have hs2 := length_stamp (grow (P1 + 8) B) (P2 + 8) (stamp f.bytes B (P1 + 8))
    (fun x hx => by rw [hs]; have := hin1 x hx; omega)
  rw [← hs, ← hs2, List.drop_left]

/-- C11, the failing input: two successive appends on the root of an empty stream.
The first child `'AAAA'` lies at offset 0 and ends at 12.  The `m_size` of the root
is still 0 afterwards, so the second child `'BBBB'` is placed at offset 0 as well,
not at 12: it overwrites the first child, and the stream holds 12 bytes, not 24. -/
theorem C11_root_appends_overlap :
    (append (openFile ⟨[], 0, [], false⟩).2 (openFile ⟨[], 0, [], false⟩).1 0x41414141 4
        (some [1, 2, 3, 4]))
      = (sub (top 0 0 0) 0x41414141 12 0, top 0 0 0,
          ⟨[0, 0, 0, 12, 65, 65, 65, 65, 1, 2, 3, 4], 12, [], false⟩) ∧
    (append ⟨[0, 0, 0, 12, 65, 65, 65, 65, 1, 2, 3, 4], 12, [], false⟩ (top 0 0 0) 0x42424242 4
        (some [5, 6, 7, 8]))
      = (sub (top 0 0 0) 0x42424242 12 0, top 0 0 0,
          ⟨[0, 0, 0, 12, 66, 66, 66, 66, 5, 6, 7, 8], 12, [], false⟩) ∧
    (sub (top 0 0 0) 0x42424242 12 0).m_offset
      ≠ (sub (top 0 0 0) 0x41414141 12 0).m_offset + 4 + 8 := by
  refine ⟨by decide, by decide, by decide⟩

/-! ## Reserved region and update (C12) -/

theorem poke_append_right (a z : List Nat) (k : Nat) (w : List Nat) :
    poke (a ++ z) (a.length + k) w = a ++ poke z k w := by
  by_cases hw : w = []
  · subst hw; simp [poke_nil]
  · simp only [poke, hw, if_false, List.take_append, List.length_append, List.append_assoc]
    have e1 : a.length + k - (a.length + z.length) = k - z.length := by omega
    have e2 : List.drop (a.length + k + w.length) (a ++ z) = List.drop (k + w.length) z := by
      rw [Nat.add_assoc, List.drop_append]
    rw [e1, e2]

theorem poke_replicate_prefix (R : Nat) (w : List Nat) (h : w.length ≤ R) :
    poke (List.replicate R 0) 0 w = w ++ List.replicate (R - w.length) 0 := by
  by_cases hw : w = []
  · subst hw; simp [poke_nil]
  · simp only [poke, hw, if_false, List.take_zero, List.length_replicate, Nat.zero_sub,
      List.replicate_zero, List.nil_append, Nat.zero_add, List.drop_replicate]

/-- C12 (amended): for the box `c` reserved by `append(tag, R)` with no data on a
box that ends at the end of the stream, and a signature of `n` bytes,
`c.update(0, signature, n)` fails, leaving the stream as it is, exactly when
`n > R`; for every `n ≤ R` it succeeds and the payload then holds the signature
followed by the `R - n` zero bytes that were there before. -/
theorem C12_update_reserved_region (f : FILE) (B : box) (tag R n : Nat) (sig : List Nat)
    (hf : f.faults = []) (htag : tag < U32) (hn : sig.length = n) (hn8 : n + 8 < SIZE)
    (hend : B.m_offset + B.m_size = f.bytes.length)
    (hlen : f.bytes.length + 8 + R < LONG)
    (hin : ∀ x ∈ lineage B, x.m_offset + 8 ≤ f.bytes.length) :
    ((update (append f B tag R none).2.2 (append f B tag R none).1 0 (some sig) n).1 = 0
        ↔ n ≤ R) ∧
    (R < n → update (append f B tag R none).2.2 (append f B tag R none).1 0 (some sig) n
        = (-1, (append f B tag R none).2.2)) ∧
    (n ≤ R →
      (update (append f B tag R none).2.2 (append f B tag R none).1 0 (some sig) n).2.bytes.drop
          (f.bytes.length + 8) = sig ++ List.replicate (R - n) 0) := by
  suffices h : (R < n → update (append f B tag R none).2.2 (append f B tag R none).1 0
        (some sig) n = (-1, (append f B tag R none).2.2)) ∧
      (n ≤ R →
        (update (append f B tag R none).2.2 (append f B tag R none).1 0 (some sig) n).1 = 0 ∧
        (update (append f B tag R none).2.2 (append f B tag R none).1 0
          (some sig) n).2.bytes.drop (f.bytes.length + 8)
          = sig ++ List.replicate (R - n) 0) by
    refine ⟨⟨fun h0 => ?_, fun hle => (h.2 hle).1⟩, h.1, fun hle => (h.2 hle).2⟩
    by_contra hc
    rw [h.1 (by omega)] at h0
    simp at h0
  have hL : LONG = 2 ^ 63 := rfl
  have hS : SIZE = 2 ^ 64 := rfl
  obtain ⟨p, hp⟩ := append_last_ok f B tag R none hf htag (fun d h => by cases h) hend hlen hin
  have hs := length_stamp B (R + 8) f.bytes (fun x hx => by have := hin x hx; omega)
  rw [hp]
  simp only [update, m_size_sub, m_offset_sub, payload, hS]
  have c0 : (0 + 8 + n) % 2 ^ 64 = n + 8 := by omega
  have c1 : (f.bytes.length + 8 + 0) % 2 ^ 64 = f.bytes.length + 8 := by omega
  have c2 : n % 2 ^ 64 = n := by omega
  rw [c0, c1, c2]
  constructor
  · intro h
    rw [if_pos (by omega)]
  · intro h
    rw [if_neg (by omega)]
    have w := write_some_ok
      ⟨stamp f.bytes B (R + 8) ++ (be32 (R + 8) ++ be32 tag ++ List.replicate R 0), p, [], f.closed⟩
      (f.bytes.length + 8) sig n rfl (by omega) hn
    rw [w]
    refine ⟨rfl, ?_⟩
    simp only
    have e : f.bytes.length + 8 = (stamp f.bytes B (R + 8) ++ (be32 (R + 8) ++ be32 tag)).length
        + 0 := by
      simp [hs, be32]
    rw [← List.append_assoc, ← List.append_assoc, List.append_assoc _ (be32 (R + 8)), e,
      poke_append_right, Nat.add_zero, List.drop_left,
      poke_replicate_prefix R sig (by omega), hn]

/-- C12, an instance: the 256-byte region reserved as in `main` for `'sibo'` under
the box `'schi'`, and a signature of 256 bytes. -/
theorem C12_update_reserved_region_witness :
    ((update (append ⟨[0, 0, 0, 8, 115, 99, 104, 105], 8, [], false⟩
            (sub (top 0 8 0) 0x73636869 8 0) 0x7369626f 256 none).2.2
          (append ⟨[0, 0, 0, 8, 115, 99, 104, 105], 8, [], false⟩
            (sub (top 0 8 0) 0x73636869 8 0) 0x7369626f 256 none).1 0
          (some (List.replicate 256 7)) 256).1 = 0 ↔ 256 ≤ 256) ∧
    (256 < 256 →
      update (append ⟨[0, 0, 0, 8, 115, 99, 104, 105], 8, [], false⟩
            (sub (top 0 8 0) 0x73636869 8 0) 0x7369626f 256 none).2.2
          (append ⟨[0, 0, 0, 8, 115, 99, 104, 105], 8, [], false⟩
            (sub (top 0 8 0) 0x73636869 8 0) 0x7369626f 256 none).1 0
          (some (List.replicate 256 7)) 256
        = (-1, (append ⟨[0, 0, 0, 8, 115, 99, 104, 105], 8, [], false⟩
            (sub (top 0 8 0) 0x73636869 8 0) 0x7369626f 256 none).2.2)) ∧
    (256 ≤ 256 →
      (update (append ⟨[0, 0, 0, 8, 115, 99, 104, 105], 8, [], false⟩
            (sub (top 0 8 0) 0x73636869 8 0) 0x7369626f 256 none).2.2
          (append ⟨[0, 0, 0, 8, 115, 99, 104, 105], 8, [], false⟩
            (sub (top 0 8 0) 0x73636869 8 0) 0x7369626f 256 none).1 0
          (some (List.replicate 256 7)) 256).2.bytes.drop
          ([0, 0, 0, 8, 115, 99, 104, 105].length + 8)
        = List.replicate 256 7 ++ List.replicate (256 - 256) 0) :=
  C12_update_reserved_region ⟨[0, 0, 0, 8, 115, 99, 104, 105], 8, [], false⟩
    (sub (top 0 8 0) 0x73636869 8 0) 0x7369626f 256 256 (List.replicate 256 7) rfl
    (by decide) (List.length_replicate _ _) (by decide) rfl (by decide) (by decide)

/-- C12, counterexample: a region of 4 bytes reserved under the box `'schi'` and a
signature of 2 bytes.  `update(0, signature, 2)` returns 0 although `2 ≠ 4`; the
payload is then `09 09 00 00`. -/
theorem C12_update_reserved_region_counterexample :
    append ⟨[0, 0, 0, 8, 115, 99, 104, 105], 8, [], false⟩ (sub (top 0 8 0) 0x73636869 8 0)
        0x7369626f 4 none
      = (sub (sub (top 0 8 0) 0x73636869 20 0) 0x7369626f 12 8,
          sub (top 0 8 0) 0x73636869 20 0,
          ⟨[0, 0, 0, 20, 115, 99, 104, 105, 0, 0, 0, 12, 115, 105, 98, 111, 0, 0, 0, 0],
            4, [], false⟩) ∧
    update ⟨[0, 0, 0, 20, 115, 99, 104, 105, 0, 0, 0, 12, 115, 105, 98, 111, 0, 0, 0, 0], 4, [], false⟩
        (sub (sub (top 0 8 0) 0x73636869 20 0) 0x7369626f 12 8) 0 (some [9, 9]) 2
      = (0, ⟨[0, 0, 0, 20, 115, 99, 104, 105, 0, 0, 0, 12, 115, 105, 98, 111, 9, 9, 0, 0],
          18, [], false⟩) := by
  refine ⟨by decide, by decide⟩

/-! ## Write failures (C13) -/

theorem write_faults (f : FILE) (o : Nat) (d : List Nat) (bytes : Nat) :
    (write f o (some d) bytes).2.faults = f.faults.tail := by
  simp only [write, fwrite, fseek]
  split <;> rfl

theorem write_short (f : FILE) (o : Nat) (d : List Nat) (bytes c : Nat) (rest : List Nat)
    (hfa : f.faults = c :: rest) (hc : c < bytes) : (write f o (some d) bytes).1 = -1 := by
  have h1 : (fseek f o).faults = c :: rest := by
    simp only [fseek]; split <;> simp [hfa]
  have h2 : ¬ (min c (List.take bytes d).length = bytes) := by
    rw [List.length_take]; omega
  simp only [write, fwrite, h1, h2, if_false]

/-- A size-field write that transfers fewer than 4 bytes, at any level that `resize`
reaches, makes `resize` return -1. -/
theorem resize_fault (b : box) (d : Nat) : ∀ (f : FILE) (k c : Nat),
    k < (lineage b).length → f.faults[k]? = some c → c < 4 → (resize f b d).1 = -1 := by
  induction b with
  | top t s o =>
    intro f k c hk hfa hc
    by_cases ht : t = 0
    · simp [lineage, ht] at hk
    · simp only [lineage, ht, if_false, List.length_singleton, Nat.lt_one_iff] at hk
      subst hk
      obtain ⟨rest, hr⟩ : ∃ rest, f.faults = c :: rest := by
        cases hfl : f.faults with
        | nil => rw [hfl] at hfa; simp at hfa
        | cons a r => rw [hfl] at hfa; simp at hfa; exact ⟨r, by rw [hfa]⟩
      have hw := write_short f o (le32 (swap32 ((s + d) % SIZE))) 4 c rest hr hc
      simp only [resize, ht, if_false, hw]
      simp
  | sub p t s o ih =>
    intro f k c hk hfa hc
    by_cases ht : t = 0
    · simp [lineage, ht] at hk
    · simp only [lineage, ht, if_false, List.length_cons] at hk
      simp only [resize, ht, if_false]
      by_cases hw : (write f o (some (le32 (swap32 ((s + d) % SIZE)))) 4).1 = 0
      · cases k with
        | zero =>
          obtain ⟨rest, hr⟩ : ∃ rest, f.faults = c :: rest := by
            cases hfl : f.faults with
            | nil => rw [hfl] at hfa; simp at hfa
            | cons a r => rw [hfl] at hfa; simp at hfa; exact ⟨r, by rw [hfa]⟩
          rw [write_short f o _ 4 c rest hr hc] at hw
          exact absurd hw (by decide)
        | succ k =>
          have hfa1 : (write f o (some (le32 (swap32 ((s + d) % SIZE)))) 4).2.faults[k]?
              = some c := by
            rw [write_faults]
            cases hfl : f.faults with
            | nil => rw [hfl] at hfa; simp at hfa
            | cons a r => rw [hfl] at hfa; simpa using hfa
          have := ih (write f o (some (le32 (swap32 ((s + d) % SIZE)))) 4).2 k c (by omega)
            hfa1 hc
          simp only [hw, ne_eq, not_true_eq_false, if_false, this]
      · simp only [ne_eq, hw, not_false_eq_true, if_true]

/-- C13, the failing input: the box `'TEST'` fills an 8-byte stream, the next
`fwrite` transfers no byte (for instance the disk is full) and later ones are
complete.  `append(data, 3)` with `data = [1, 2, 3]` stores no payload byte, the
failed `write` is not looked at, the size field is rewritten to 11 and the call
returns 0. -/
theorem C13_append_ignores_payload_failure :
    (write ⟨[0, 0, 0, 8, 84, 69, 83, 84], 8, [0], false⟩ 8 (some [1, 2, 3]) 3).1 = -1 ∧
    appendData ⟨[0, 0, 0, 8, 84, 69, 83, 84], 8, [0], false⟩ (sub (top 0 8 0) 0x54455354 8 0)
        (some [1, 2, 3]) 3
      = (0, sub (top 0 8 0) 0x54455354 11 0, ⟨[0, 0, 0, 11, 84, 69, 83, 84], 4, [], false⟩) := by
  refine ⟨by decide, by decide⟩

/-! ## Frame of update, zero fill (C14, C15) -/

/-- C14, the failing input: the box `'efgh'` of size 8 at offset 12, payload-relative
offset `2^64 - 8` and 4 bytes.  `offset + 8 + bytes` wraps to 4 in `size_t`, the
check passes, `update` returns 0 and stores the 4 bytes at stream position 12: the
own size field of the box, outside its payload range, now reads `0x01020304`. -/
theorem C14_update_hits_header :
    update ⟨[0, 0, 0, 12, 97, 98, 99, 100, 1, 2, 3, 4, 0, 0, 0, 8, 101, 102, 103, 104], 20, [], false⟩
        (sub (top 0 20 0) 0x65666768 8 12) 18446744073709551608 (some [1, 2, 3, 4]) 4
      = (0, ⟨[0, 0, 0, 12, 97, 98, 99, 100, 1, 2, 3, 4, 1, 2, 3, 4, 101, 102, 103, 104],
          16, [], false⟩) ∧
    18446744073709551608 < SIZE ∧
    rd32 [0, 0, 0, 12, 97, 98, 99, 100, 1, 2, 3, 4, 0, 0, 0, 8, 101, 102, 103, 104]
        (sub (top 0 20 0) 0x65666768 8 12).m_offset = 8 ∧
    rd32 [0, 0, 0, 12, 97, 98, 99, 100, 1, 2, 3, 4, 1, 2, 3, 4, 101, 102, 103, 104]
        (sub (top 0 20 0) 0x65666768 8 12).m_offset = 16909060 ∧
    ¬ ((sub (top 0 20 0) 0x65666768 8 12).m_offset + 8 ≤ 12) := by
  refine ⟨by decide, by decide, by decide, by decide, by decide⟩

/-- C15: without write failure `clear(offset, n)` returns 0, leaves the position at
`offset + n`, makes every byte of `[offset, offset + n)` zero and keeps every other
byte of the old stream, for every `n`; `write` with a null buffer is `clear`, and
the payload of a child appended with no data consists of `P` zero bytes. -/
theorem C15_zero_fill (f : FILE) (offset n : Nat) (B : box) (tag P : Nat)
    (hf : f.faults = []) (ho : offset < LONG) (htag : tag < U32)
    (hend : B.m_offset + B.m_size = f.bytes.length)
    (hlen : f.bytes.length + 8 + P < LONG)
    (hin : ∀ x ∈ lineage B, x.m_offset + 8 ≤ f.bytes.length) :
    (clear f offset n).1 = 0 ∧ (clear f offset n).2.pos = offset + n ∧
      (∀ i, offset ≤ i → i < offset + n → (clear f offset n).2.bytes[i]? = some 0) ∧
      (∀ i, i < f.bytes.length → ¬ (offset ≤ i ∧ i < offset + n) →
        (clear f offset n).2.bytes[i]? = f.bytes[i]?) ∧
      (clear f offset n).2.bytes.length
        = (if n = 0 then f.bytes.length else max f.bytes.length (offset + n)) ∧
      write f offset none n = clear f offset n ∧
      (append f B tag P none).2.2.bytes.drop (f.bytes.length + 8) = List.replicate P 0 := by
  rw [clear_ok f offset n hf ho]
  refine ⟨rfl, rfl, fun i h1 h2 => ?_, fun i h1 h2 => ?_, ?_, clear_ok f offset n hf ho, ?_⟩
  · simp only [poke_getElem, List.length_replicate]
    rw [if_pos ⟨h1, h2⟩, List.getElem?_replicate, if_pos (by omega)]
  · simp only [poke_getElem, List.length_replicate]
    rw [if_neg h2, if_pos h1]
  · by_cases h0 : n = 0
    · subst h0; simp [poke_nil]
    · simp only [h0, if_false]
      rw [length_poke _ _ _ (by
        intro h
        have := congrArg List.length h
        simp at this
        exact h0 this), List.length_replicate]
  · obtain ⟨p, hp⟩ := append_last_ok f B tag P none hf htag (fun d h => by cases h)
      hend hlen hin
    have hs := length_stamp B (P + 8) f.bytes (fun x hx => by have := hin x hx; omega)
    rw [hp]
    simp only [payload]
    have e : f.bytes.length + 8
        = (stamp f.bytes B (P + 8) ++ (be32 (P + 8) ++ be32 tag)).length := by
      simp [hs, be32]
    rw [← List.append_assoc, e, List.drop_left]

/-- C15, an instance: 40 zero bytes, more than one chunk of 32 and not a multiple of
32, stored behind an 8-byte stream; a child with 3 zero payload bytes. -/
theorem C15_zero_fill_witness :
    (clear ⟨[0, 0, 0, 8, 84, 69, 83, 84], 0, [], false⟩ 8 40).1 = 0 ∧
      (clear ⟨[0, 0, 0, 8, 84, 69, 83, 84], 0, [], false⟩ 8 40).2.pos = 8 + 40 ∧
      (∀ i, 8 ≤ i → i < 8 + 40 →
        (clear ⟨[0, 0, 0, 8, 84, 69, 83, 84], 0, [], false⟩ 8 40).2.bytes[i]? = some 0) ∧
      (∀ i, i < [0, 0, 0, 8, 84, 69, 83, 84].length → ¬ (8 ≤ i ∧ i < 8 + 40) →
        (clear ⟨[0, 0, 0, 8, 84, 69, 83, 84], 0, [], false⟩ 8 40).2.bytes[i]?
          = [0, 0, 0, 8, 84, 69, 83, 84][i]?) ∧
      (clear ⟨[0, 0, 0, 8, 84, 69, 83, 84], 0, [], false⟩ 8 40).2.bytes.length
        = (if 40 = 0 then [0, 0, 0, 8, 84, 69, 83, 84].length
            else max [0, 0, 0, 8, 84, 69, 83, 84].length (8 + 40)) ∧
      write ⟨[0, 0, 0, 8, 84, 69, 83, 84], 0, [], false⟩ 8 none 40
        = clear ⟨[0, 0, 0, 8, 84, 69, 83, 84], 0, [], false⟩ 8 40 ∧
      (append ⟨[0, 0, 0, 8, 84, 69, 83, 84], 0, [], false⟩ (sub (top 0 8 0) 0x54455354 8 0)
          0x61626364 3 none).2.2.bytes.drop ([0, 0, 0, 8, 84, 69, 83, 84].length + 8)
        = List.replicate 3 0 :=
  C15_zero_fill ⟨[0, 0, 0, 8, 84, 69, 83, 84], 0, [], false⟩ 8 40 (sub (top 0 8 0) 0x54455354 8 0)
    0x61626364 3 rfl (by decide) (by decide) rfl (by decide) (by decide)

/-! ## Size field after resize (C16) -/

/-- C16 (amended): without write failure, for a box with non-zero tag whose chain
is properly nested, the size field stored at the offset of the box after
`resize(delta)` is the new in-memory size reduced modulo `2^32`.  If the field held
the in-memory size before the call and the new size is below `2^32`, the field
equals the new in-memory size and is not smaller than before. -/
theorem C16_size_field_after_resize (f : FILE) (b : box) (δ : Nat)
    (hf : f.faults = []) (hb : b.m_tag ≠ 0)
    (hoff : ∀ x ∈ lineage b, x.m_offset < LONG) (hn : nested b) :
    (resize f b δ).1 = 0 ∧
      rd32 (resize f b δ).2.2.bytes b.m_offset = (resize f b δ).2.1.m_size % U32 ∧
      (rd32 f.bytes b.m_offset = b.m_size → b.m_size + δ < U32 →
        rd32 (resize f b δ).2.2.bytes b.m_offset = (resize f b δ).2.1.m_size ∧
        rd32 f.bytes b.m_offset ≤ rd32 (resize f b δ).2.2.bytes b.m_offset ∧
        (resize f b δ).2.1.m_size = b.m_size + δ) := by
  have hS : SIZE = 2 ^ 64 := rfl
  have hU : U32 = 2 ^ 32 := rfl
  obtain ⟨p, hp⟩ := resize_ok b δ f hf hoff
  have hg := (grow_fields δ b hb).1
  have hfield := rd32_of_field (stamp f.bytes b δ) b.m_offset ((b.m_size + δ) % SIZE)
    (stamp_field b δ f.bytes hn b (mem_lineage_self b hb))
  rw [hp]
  simp only [hg]
  refine ⟨trivial, hfield, fun hd hs => ?_⟩
  have e : (b.m_size + δ) % SIZE = b.m_size + δ := by rw [hS]; omega
  rw [hfield, hd, e, Nat.mod_eq_of_lt hs]
  exact ⟨rfl, by omega, rfl⟩

/-- C16, an instance: the box `'TEST'` of size 8 grows by 5. -/
theorem C16_size_field_after_resize_witness :
    (resize ⟨[0, 0, 0, 8, 84, 69, 83, 84], 8, [], false⟩ (sub (top 0 8 0) 0x54455354 8 0) 5).1 = 0 ∧
      rd32 (resize ⟨[0, 0, 0, 8, 84, 69, 83, 84], 8, [], false⟩
          (sub (top 0 8 0) 0x54455354 8 0) 5).2.2.bytes (sub (top 0 8 0) 0x54455354 8 0).m_offset
        = (resize ⟨[0, 0, 0, 8, 84, 69, 83, 84], 8, [], false⟩
          (sub (top 0 8 0) 0x54455354 8 0) 5).2.1.m_size % U32 ∧
      (rd32 [0, 0, 0, 8, 84, 69, 83, 84] (sub (top 0 8 0) 0x54455354 8 0).m_offset
          = (sub (top 0 8 0) 0x54455354 8 0).m_size →
        (sub (top 0 8 0) 0x54455354 8 0).m_size + 5 < U32 →
        rd32 (resize ⟨[0, 0, 0, 8, 84, 69, 83, 84], 8, [], false⟩
            (sub (top 0 8 0) 0x54455354 8 0) 5).2.2.bytes
            (sub (top 0 8 0) 0x54455354 8 0).m_offset
          = (resize ⟨[0, 0, 0, 8, 84, 69, 83, 84], 8, [], false⟩
            (sub (top 0 8 0) 0x54455354 8 0) 5).2.1.m_size ∧
        rd32 [0, 0, 0, 8, 84, 69, 83, 84] (sub (top 0 8 0) 0x54455354 8 0).m_offset
          ≤ rd32 (resize ⟨[0, 0, 0, 8, 84, 69, 83, 84], 8, [], false⟩
            (sub (top 0 8 0) 0x54455354 8 0) 5).2.2.bytes
            (sub (top 0 8 0) 0x54455354 8 0).m_offset ∧
        (resize ⟨[0, 0, 0, 8, 84, 69, 83, 84], 8, [], false⟩
            (sub (top 0 8 0) 0x54455354 8 0) 5).2.1.m_size
          = (sub (top 0 8 0) 0x54455354 8 0).m_size + 5) :=
  C16_size_field_after_resize ⟨[0, 0, 0, 8, 84, 69, 83, 84], 8, [], false⟩
    (sub (top 0 8 0) 0x54455354 8 0) 5 rfl (by decide) (by decide) (by simp [nested, lineage])

/-- C16, counterexample: (1) a box whose size field and in-memory size are
`0xFFFFFFF8` is resized by 8: the field becomes 0, smaller than before and different
from the in-memory size `2^32`; (2) two handles `x` and `y` of the box `'TEST'` of
size 8 are obtained by `first()`, a child of 12 bytes is appended through `x`, which
stores the size 20, then `resize(8)` on `y`, whose in-memory size is still 8, stores
16, which is smaller than 20. -/
theorem C16_size_field_after_resize_counterexample :
    (rd32 [255, 255, 255, 248, 84, 69, 83, 84] 0 = 4294967288 ∧
      resize ⟨[255, 255, 255, 248, 84, 69, 83, 84], 0, [], false⟩
          (sub (top 0 8 0) 0x54455354 4294967288 0) 8
        = (0, sub (top 0 8 0) 0x54455354 4294967296 0,
            ⟨[0, 0, 0, 0, 84, 69, 83, 84], 4, [], false⟩) ∧
      rd32 [0, 0, 0, 0, 84, 69, 83, 84] 0 = 0) ∧
    (first 1 ⟨[0, 0, 0, 8, 84, 69, 83, 84], 8, [], false⟩ (top 0 8 0) 0 0
        = Outcome.ok (sub (top 0 8 0) 0x54455354 8 0, ⟨[0, 0, 0, 8, 84, 69, 83, 84], 8, [], false⟩) ∧
      (append ⟨[0, 0, 0, 8, 84, 69, 83, 84], 8, [], false⟩ (sub (top 0 8 0) 0x54455354 8 0)
          0x61626364 4 (some [1, 2, 3, 4])).2.2
        = ⟨[0, 0, 0, 20, 84, 69, 83, 84, 0, 0, 0, 12, 97, 98, 99, 100, 1, 2, 3, 4], 4, [], false⟩ ∧
      resize ⟨[0, 0, 0, 20, 84, 69, 83, 84, 0, 0, 0, 12, 97, 98, 99, 100, 1, 2, 3, 4], 4, [], false⟩
          (sub (top 0 8 0) 0x54455354 8 0) 8
        = (0, sub (top 0 8 0) 0x54455354 16 0,
            ⟨[0, 0, 0, 16, 84, 69, 83, 84, 0, 0, 0, 12, 97, 98, 99, 100, 1, 2, 3, 4], 4, [], false⟩) ∧
      rd32 [0, 0, 0, 16, 84, 69, 83, 84, 0, 0, 0, 12, 97, 98, 99, 100, 1, 2, 3, 4] 0
        < rd32 [0, 0, 0, 20, 84, 69, 83, 84, 0, 0, 0, 12, 97, 98, 99, 100, 1, 2, 3, 4] 0) := by
  refine ⟨⟨by decide, by decide, by decide⟩, by decide, by decide, by decide, by decide⟩

/-! ## Header codec and byte reversal (C17, C18) -/

/-- C17: writing the header of a box with 32-bit tag, size `s < 2^32`, offset `o` and
parent `p` by `writeHeader` to the open stream, then constructing a box from the 8
bytes at `o` with parent `p`, gives a box with the same tag, size, offset and
parent. -/
theorem C17_header_roundtrip (f : FILE) (p : box) (tag s o : Nat)
    (hf : f.faults = []) (hopen : f.closed = false) (htag : tag < U32) (hs : s < U32)
    (ho : o < LONG) :
    (writeHeader f (sub p tag s o)).1 = 0 ∧
      ∃ f1, load (writeHeader f (sub p tag s o)).2 o p = Outcome.ok (sub p tag s o, f1) := by
  have hw := write_some_ok f o (be32 s ++ be32 tag) 8 hf ho rfl
  simp only [writeHeader, m_size_sub, m_tag_sub, m_offset_sub, le32_swap32, hw]
  refine ⟨trivial, ?_⟩
  have hlen : o + 8 ≤ (poke f.bytes o (be32 s ++ be32 tag)).length := by
    rw [length_poke _ _ _ (by simp [be32])]
    simp [be32]
  have hl := load_ok ⟨poke f.bytes o (be32 s ++ be32 tag), o + 8, [], f.closed⟩ o p hlen ho
    hopen
  have h1 : rd32 (poke f.bytes o (be32 s ++ be32 tag)) o = s % U32 := by
    apply rd32_of_field
    intro k hk
    rw [poke_getElem, if_pos (by simp [be32]; omega), Nat.add_sub_cancel_left,
      List.getElem?_append_left (by simp [be32]; omega)]
  have h2 : rd32 (poke f.bytes o (be32 s ++ be32 tag)) (o + 4) = tag % U32 := by
    apply rd32_of_field
    intro k hk
    rw [poke_getElem, if_pos (by simp [be32]; omega),
      List.getElem?_append_right (by simp [be32]; omega)]
    congr 1
    simp [be32]
    omega
  refine ⟨⟨poke f.bytes o (be32 s ++ be32 tag), o + 8, [],
    decide (rd32 (poke f.bytes o (be32 s ++ be32 tag)) (o + 4) = 0)⟩, ?_⟩
  rw [hl]
  simp only [header, h1, h2, Nat.mod_eq_of_lt hs, Nat.mod_eq_of_lt htag]

/-- C17, an instance: the header of a box `'abcd'` of size 20 at offset 8 below the
box `'TEST'`, in a stream of 8 bytes. -/
theorem C17_header_roundtrip_witness :
    (writeHeader ⟨[0, 0, 0, 8, 84, 69, 83, 84], 0, [], false⟩
        (sub (sub (top 0 8 0) 0x54455354 8 0) 0x61626364 20 8)).1 = 0 ∧
      ∃ f1, load (writeHeader ⟨[0, 0, 0, 8, 84, 69, 83, 84], 0, [], false⟩
            (sub (sub (top 0 8 0) 0x54455354 8 0) 0x61626364 20 8)).2 8
          (sub (top 0 8 0) 0x54455354 8 0)
        = Outcome.ok (sub (sub (top 0 8 0) 0x54455354 8 0) 0x61626364 20 8, f1) :=
  C17_header_roundtrip ⟨[0, 0, 0, 8, 84, 69, 83, 84], 0, [], false⟩ (sub (top 0 8 0) 0x54455354 8 0)
    0x61626364 20 8 rfl rfl (by decide) (by decide) (by decide)

theorem swap64_byte (y j : Nat) (hy : y < 2 ^ 64) (hj : j < 8) :
    swap64 y / 2 ^ (8 * j) % 256 = y / 2 ^ (8 * (7 - j)) % 256 := by
  have hS : SIZE = 2 ^ 64 := rfl
  have hU : U32 = 2 ^ 32 := rfl
  have hA := swap32_lt (y % SIZE % U32)
  have hB := swap32_lt (y % SIZE / U32)
  rw [swap64_eq y]
  by_cases h4 : j < 4
  · have hb := swap32_byte (y % SIZE / U32) j h4
    rw [hS, hU] at hA hB hb ⊢
    generalize swap32 (y % 2 ^ 64 % 2 ^ 32) = A at *
    generalize swap32 (y % 2 ^ 64 / 2 ^ 32) = B at *
    interval_cases j <;>
      simp only [Nat.reduceMul, Nat.reduceSub, Nat.reducePow, Nat.div_one] at hb ⊢ <;> omega
  · obtain ⟨k, rfl⟩ : ∃ k, j = k + 4 := ⟨j - 4, by omega⟩
    have ha := swap32_byte (y % SIZE % U32) k (by omega)
    rw [hS, hU] at hA hB ha ⊢
    generalize swap32 (y % 2 ^ 64 % 2 ^ 32) = A at *
    generalize swap32 (y % 2 ^ 64 / 2 ^ 32) = B at *
    have hk : k < 4 := by omega
    interval_cases k <;>
      simp only [Nat.reduceMul, Nat.reduceSub, Nat.reducePow, Nat.div_one, Nat.reduceAdd]
        at ha ⊢ <;> omega

/-- C18: byte `i` of `swap32(x)` is byte `3 - i` of `x` for every 32-bit `x`, byte
`j` of `swap64(y)` is byte `7 - j` of `y` for every 64-bit `y` on the little-endian
host, and the object representation of `swap32(x)` in host memory is the big-endian
encoding of `x`. -/
theorem C18_byte_reversal (x y i j : Nat) (hx : x < 2 ^ 32) (hy : y < 2 ^ 64)
    (hi : i < 4) (hj : j < 8) :
    swap32 x / 2 ^ (8 * i) % 256 = x / 2 ^ (8 * (3 - i)) % 256 ∧
      swap64 y / 2 ^ (8 * j) % 256 = y / 2 ^ (8 * (7 - j)) % 256 ∧
      le32 (swap32 x) = be32 x ∧ swap32 (ld32 (be32 x)) = x :=
  ⟨swap32_byte x i hi, swap64_byte y j hy hj, le32_swap32 x,
    (swap32_ld32_be32 x).trans (Nat.mod_eq_of_lt hx)⟩

/-- C18, an instance. -/
theorem C18_byte_reversal_witness :
    swap32 0x11223344 / 2 ^ (8 * 1) % 256 = 0x11223344 / 2 ^ (8 * (3 - 1)) % 256 ∧
      swap64 0x1122334455667788 / 2 ^ (8 * 5) % 256
        = 0x1122334455667788 / 2 ^ (8 * (7 - 5)) % 256 ∧
      le32 (swap32 0x11223344) = be32 0x11223344 ∧
      swap32 (ld32 (be32 0x11223344)) = 0x11223344 :=
  C18_byte_reversal 0x11223344 0x1122334455667788 1 5 (by decide) (by decide) (by decide)
    (by decide)

/-! ## Unchecked precondition of append, termination of the walks (C19, C20) -/

/-- C19: there is a stream with two siblings `X` and `Y` below the root, `X` not
last in the stream, such that `X.append(tag, P, data)` returns a child placed at
the offset of `Y` and the bytes of `Y` from its header on are replaced by the header
and the payload of the child. -/
theorem C19_append_unchecked :
    ∃ (f f1 f2 : FILE) (X Y : box) (tag P : Nat) (data : List Nat),
      first 1 (openFile f).2 (openFile f).1 0 0 = Outcome.ok (X, f1) ∧
      next f1 X = Outcome.ok (Y, f2) ∧ Y.m_size ≠ 0 ∧ isLast X = false ∧
      f2.bytes = f.bytes ∧ data.length = P ∧
      (append f2 X tag P (some data)).1.m_offset = Y.m_offset ∧
      ((append f2 X tag P (some data)).2.2.bytes.drop Y.m_offset).take (8 + P)
        = be32 (P + 8) ++ be32 tag ++ data ∧
      (f.bytes.drop Y.m_offset).take (8 + P) ≠ be32 (P + 8) ++ be32 tag ++ data :=
  ⟨⟨[0, 0, 0, 12, 97, 98, 99, 100, 1, 2, 3, 4, 0, 0, 0, 12, 101, 102, 103, 104, 5, 6, 7, 8],
      0, [], false⟩,
    ⟨[0, 0, 0, 12, 97, 98, 99, 100, 1, 2, 3, 4, 0, 0, 0, 12, 101, 102, 103, 104, 5, 6, 7, 8],
      8, [], false⟩,
    ⟨[0, 0, 0, 12, 97, 98, 99, 100, 1, 2, 3, 4, 0, 0, 0, 12, 101, 102, 103, 104, 5, 6, 7, 8],
      20, [], false⟩,
    sub (top 0 24 0) 0x61626364 12 0, sub (top 0 24 0) 0x65666768 12 12, 0x696a6b6c, 2, [9, 9],
    by decide, by decide, by decide, by decide, by decide, by decide, by decide, by decide,
    by decide⟩

theorem destroy_cases (f : FILE) (b : box) :
    destroy f b = Outcome.undef ∨ ∃ f1, destroy f b = Outcome.ok f1 := by
  cases b with
  | top t s o => exact Or.inr ⟨f, rfl⟩
  | sub p t s o =>
    by_cases ht : t = 0
    · by_cases hc : f.closed = true
      · left; simp only [destroy, ht, hc, if_true]
      · right; exact ⟨fclose f, by simp [destroy, ht, hc]⟩
    · right; exact ⟨f, by simp only [destroy, ht, if_false]⟩

theorem load_cases (f : FILE) (o : Nat) (p : box) :
    load f o p = Outcome.undef ∨
      ∃ tg sz f1, sz < U32 ∧ load f o p = Outcome.ok (sub p tg sz (o % SIZE), f1) := by
  by_cases hc : f.closed = true
  · left
    simp only [load, hc, if_true]
  by_cases h : ((fread (fseek f o) 8).1).length < 8
  · left
    simp only [load, h, if_true, ite_self]
  · have hU : U32 = 2 ^ 32 := rfl
    have hS : SIZE = 2 ^ 64 := rfl
    rcases destroy_cases (fread (fseek f o) 8).2
        (sub p (swap32 (ld32 ((fread (fseek f o) 8).1.drop 4)) % U32)
          (swap32 (ld32 (fread (fseek f o) 8).1) % SIZE) (o % SIZE)) with hd | ⟨f2, hd⟩
    · left
      simp [load, hc, h, mk4, hd]
    · right
      refine ⟨swap32 (ld32 ((fread (fseek f o) 8).1.drop 4)) % U32,
        swap32 (ld32 (fread (fseek f o) 8).1) % SIZE, f2, ?_, ?_⟩
      · have := swap32_lt (ld32 (fread (fseek f o) 8).1)
        rw [hS, hU]
        omega
      · simp [load, hc, h, mk4, hd]

theorem scan_no_timeout (hit : box → Bool) (p : box) (hw : p.end_ + U32 ≤ SIZE) :
    ∀ (m : Nat) (f : FILE) (t s o fuel : Nat), s < U32 → o < p.end_ → p.end_ - o ≤ m →
      m + 1 ≤ fuel → scan hit fuel f (sub p t s o) ≠ Outcome.timeout := by
  have hU : U32 = 2 ^ 32 := rfl
  have hS : SIZE = 2 ^ 64 := rfl
  intro m
  induction m with
  | zero => intro f t s o fuel _ ho hm _; omega
  | succ m ih =>
    intro f t s o fuel hs ho hm hfuel
    obtain ⟨n, rfl⟩ : ∃ n, fuel = n + 1 := ⟨fuel - 1, by omega⟩
    rw [scan_succ]
    have hdf : ∀ (g : FILE) (r : box),
        (match destroy g (sub p t s o) with
          | Outcome.ok f1 => Outcome.ok (r, f1)
          | Outcome.undef => Outcome.undef
          | Outcome.timeout => Outcome.timeout) ≠ (Outcome.timeout : Outcome (box × FILE)) := by
      intro g r
      rcases destroy_cases g (sub p t s o) with hd | ⟨g1, hd⟩
      · rw [hd]; simp
      · rw [hd]; simp
    by_cases h0 : (sub p t s o).m_size ≠ 0
    · rw [if_pos h0]
      by_cases hh : hit (sub p t s o) = true
      · rw [if_pos hh]; exact hdf f _
      · rw [if_neg hh]
        have he : (sub p t s o).end_ = o + s := by
          simp only [end_, m_offset_sub, m_size_sub]
          exact Nat.mod_eq_of_lt (by omega)
        simp only [m_size_sub] at h0
        by_cases hlt : (sub p t s o).end_ < p.end_
        · simp only [next, hlt, if_true]
          rcases load_cases f (sub p t s o).end_ p with hl | ⟨tg, sz, f1, hsz, hl⟩
          · rw [hl]; simp
          · rw [hl]
            simp only
            have e : (sub p t s o).end_ % SIZE = o + s := by
              rw [he]; exact Nat.mod_eq_of_lt (by omega)
            rw [e]
            rcases destroy_cases f1 (sub p tg sz (o + s)) with hd | ⟨f2, hd⟩
            · rw [hd]; simp
            · rw [hd]
              exact ih f2 tg sz (o + s) n hsz (by rw [he] at hlt; exact hlt) (by omega)
                (by omega)
        · simp only [next, hlt, if_false]
          obtain ⟨k, rfl⟩ : ∃ k, n = k + 1 := ⟨n - 1, by omega⟩
          rw [destroy_sentinel]
          simp only
          rw [scan_sentinel]; simp
    · rw [if_neg h0]; exact hdf f _

/-- C20: when the end of the parent is at least `2^32` below the largest `size_t`
value (no offset of the walk wraps around), the loop of `b.first(t, e)` does not
use up a budget of (end of `b` - start offset) + 1 iterations, and the loop of
`c.next(t)` for a box `c` with parent `p` not one of (end of `p` - end of `c`) + 1,
whatever the stream holds: the walk ends with a result or where the source has no
defined behaviour (an incomplete header, a stream closed by a header with tag 0). -/
theorem C20_traversal_terminates (f : FILE) (b c : box) (t e fuel : Nat)
    (hb : b.end_ + U32 ≤ SIZE) (hfuel : b.end_ - start b e + 1 ≤ fuel)
    (hc : ∀ p, c.parent = some p → p.end_ + U32 ≤ SIZE ∧ p.end_ - c.end_ + 1 ≤ fuel) :
    first fuel f b t e ≠ Outcome.timeout ∧ nextTag fuel f c t ≠ Outcome.timeout := by
  have hU : U32 = 2 ^ 32 := rfl
  have hS : SIZE = 2 ^ 64 := rfl
  constructor
  · have hst : (if b.m_tag ≠ 0 then (b.m_offset + 8 + e) % SIZE else 0) = start b e := by
      by_cases h : b.m_tag = 0 <;> simp [start, h]
    simp only [first, hst]
    by_cases hs : start b e < b.end_
    · rw [if_pos hs]
      rcases load_cases f (start b e) b with hl | ⟨tg, sz, f1, hsz, hl⟩
      · rw [hl]; simp
      · rw [hl]
        simp only
        have e1 : start b e % SIZE = start b e := Nat.mod_eq_of_lt (by omega)
        rw [e1]
        exact scan_no_timeout _ b hb (b.end_ - start b e) f1 tg sz (start b e) fuel hsz hs
          (le_refl _) hfuel
    · rw [if_neg hs]; simp
  · cases c with
    | top tc sc oc => simp [nextTag, next]
    | sub p tc sc oc =>
      obtain ⟨hp, hf2⟩ := hc p rfl
      simp only [nextTag, next]
      by_cases hlt : (sub p tc sc oc).end_ < p.end_
      · rw [if_pos hlt]
        rcases load_cases f (sub p tc sc oc).end_ p with hl | ⟨tg, sz, f1, hsz, hl⟩
        · rw [hl]; simp
        · rw [hl]
          simp only
          have e1 : (sub p tc sc oc).end_ % SIZE = (sub p tc sc oc).end_ :=
            Nat.mod_eq_of_lt (by omega)
          rw [e1]
          exact scan_no_timeout _ p hp (p.end_ - (sub p tc sc oc).end_) f1 tg sz _ fuel hsz hlt
            (le_refl _) hf2
      · rw [if_neg hlt]
        obtain ⟨k, rfl⟩ : ∃ k, fuel = k + 1 := ⟨fuel - 1, by omega⟩
        simp only [scan_sentinel]
        simp

/-- C20, an instance: the search for a tag that does not occur, below the root of a
20-byte stream with two boxes and behind its first box, with a budget of 21. -/
theorem C20_traversal_terminates_witness :
    first 21 ⟨[0, 0, 0, 12, 97, 98, 99, 100, 1, 2, 3, 4, 0, 0, 0, 8, 101, 102, 103, 104], 0, [], false⟩
        (top 0 20 0) 0x7a7a7a7a 0 ≠ Outcome.timeout ∧
      nextTag 21
        ⟨[0, 0, 0, 12, 97, 98, 99, 100, 1, 2, 3, 4, 0, 0, 0, 8, 101, 102, 103, 104], 0, [], false⟩
        (sub (top 0 20 0) 0x61626364 12 0) 0x7a7a7a7a ≠ Outcome.timeout :=
  C20_traversal_terminates
    ⟨[0, 0, 0, 12, 97, 98, 99, 100, 1, 2, 3, 4, 0, 0, 0, 8, 101, 102, 103, 104], 0, [], false⟩
    (top 0 20 0) (sub (top 0 20 0) 0x61626364 12 0) 0x7a7a7a7a 0 21 (by decide) (by decide)
    (fun p h => by
      simp only [parent, Option.some.injEq] at h
      subst h
      decide)

end siso
